import Mathlib

/-!
# config-gen: literal synthesis for schema defaults

A shallow embedding of `cmd/config-gen/main.go` (olefire/config-gen) and the
properties of its duration normaliser, literal synthesiser and field builder.

Modelling conventions

* A Go `string` is a list of Unicode code points (`Str`); the schema document is
  YAML, so every string that reaches the generator is valid UTF-8.
* `log.Fatalf` ends the process: a function that may reach it returns `Option`,
  and `none` is the aborted run.
* Go `int` is 64 bits wide; arithmetic on it wraps (`wrapInt64`).
* Library tables and floating point steps that the generator only consumes are
  fields of `Runtime`.
* A Go map is the list of its entries; the order in which each `range` statement
  visits it is given by a `RangeOrder`, one order per loop execution.
-/

namespace ConfigGen

/-- Go string, as its sequence of code points. -/
abbrev Str := List Char

/-! ## Library parameters -/

/-- Standard-library data the generator depends on but does not define. -/
structure Runtime where
  /-- `strconv.IsPrint` above Latin-1 (a Unicode table). -/
  isPrintTable : Char → Bool
  /-- `uint64(float64(f) * (float64(unit) / scale))` with `scale = 10^k`, the
  floating point step of `time.ParseDuration` for a fraction `f`. -/
  fracNanos : Nat → Nat → Nat → Nat
  /-- `fmt.Sprintf("%v", x)` for a `float64` given by its IEEE-754 bits. -/
  fmtFloat : Nat → Str
  /-- `unicode.IsLetter` above ASCII. -/
  isLetterTable : Char → Bool
  /-- `unicode.IsDigit` above ASCII. -/
  isDigitTable : Char → Bool
  /-- `unicode.ToTitle` above ASCII. -/
  toTitleTable : Char → Char

/-- Order of the visits of every `range` over a map. A loop execution is
identified by the path of the value it runs on and by its place in the source;
`visit path site n` lists the positions of an `n`-entry map in visiting order. -/
structure RangeOrder where
  visit : List Nat → Nat → Nat → List Nat
  perm : ∀ p s n, List.Perm (visit p s n) (List.range n)

/-- The entries of `m` in the order a `range` statement visits them. -/
def rangeOver {α : Type} (ρ : RangeOrder) (p : List Nat) (site : Nat) (m : List α) : List α :=
  (ρ.visit p site m.length).filterMap (fun i => m[i]?)

/-- Visit in stored order. -/
def RangeOrder.stored : RangeOrder where
  visit := fun _ _ n => List.range n
  perm := fun _ _ _ => List.Perm.refl _

/-- Visit in reverse of the stored order. -/
def RangeOrder.reversed : RangeOrder where
  visit := fun _ _ n => (List.range n).reverse
  perm := fun _ _ n => List.reverse_perm (List.range n)

/-! ## Strings, integers -/

/-- `unicode.IsSpace`. -/
def isSpace (c : Char) : Bool :=
  let n := c.toNat
  (9 ≤ n && n ≤ 13) || n == 0x20 || n == 0x85 || n == 0xA0 || n == 0x1680 ||
  (0x2000 ≤ n && n ≤ 0x200A) || n == 0x2028 || n == 0x2029 || n == 0x202F ||
  n == 0x205F || n == 0x3000

/-- `strings.TrimSpace`. -/
def trimSpace (s : Str) : Str :=
  ((s.dropWhile isSpace).reverse.dropWhile isSpace).reverse

/-- `strings.HasSuffix`. -/
def hasSuffix (s suffix : Str) : Bool :=
  decide (suffix.length ≤ s.length) && s.drop (s.length - suffix.length) == suffix

/-- `strings.TrimSuffix`. -/
def trimSuffix (s suffix : Str) : Str :=
  if hasSuffix s suffix then s.take (s.length - suffix.length) else s

/-- ASCII decimal digit test. -/
def isDigit (c : Char) : Bool := 48 ≤ c.toNat && c.toNat ≤ 57

/-- Value of a run of decimal digits, `none` when a character is no digit. -/
def digitsValue : Str → Nat → Option Nat
  | [], acc => some acc
  | c :: cs, acc => if isDigit c then digitsValue cs (acc * 10 + (c.toNat - 48)) else none

/-- `strconv.Atoi` on a 64-bit platform: optional sign, at least one digit,
decimal digits only, value within `int`. -/
def atoi (s : Str) : Option Int :=
  match s with
  | [] => none
  | c :: rest =>
    let neg := c == '-'
    let ds := if c == '-' || c == '+' then rest else s
    if ds.isEmpty then none
    else
      match digitsValue ds 0 with
      | none => none
      | some n =>
        if neg then (if n ≤ 2 ^ 63 then some (-(n : Int)) else none)
        else (if n < 2 ^ 63 then some (n : Int) else none)

/-- Two's complement wrap-around of Go `int` (64 bits). -/
def wrapInt64 (x : Int) : Int := (x + 2 ^ 63) % 2 ^ 64 - 2 ^ 63

/-- `%d` / `%v` of a signed integer. -/
def fmtInt : Int → Str
  | Int.ofNat n => Nat.toDigits 10 n
  | Int.negSucc n => '-' :: Nat.toDigits 10 (n + 1)

/-! ## `time.ParseDuration` -/

/-- `time.leadingInt`: the leading digits of `s` as a number; `none` on overflow. -/
def leadingInt : Str → Nat → Option (Nat × Str)
  | [], x => some (x, [])
  | c :: cs, x =>
    if !isDigit c then some (x, c :: cs)
    else if x > 2 ^ 63 / 10 then none
    else
      let y := x * 10 + (c.toNat - 48)
      if y > 2 ^ 63 then none else leadingInt cs y

/-- `time.leadingFraction`: leading digits as numerator `x` and the number `k`
of digits kept (`scale = 10^k`); digits past an overflow are skipped. -/
def leadingFraction : Str → Nat → Nat → Bool → Nat × Nat × Str
  | [], x, k, _ => (x, k, [])
  | c :: cs, x, k, overflow =>
    if !isDigit c then (x, k, c :: cs)
    else if overflow then leadingFraction cs x k true
    else if x > (2 ^ 63 - 1) / 10 then leadingFraction cs x k true
    else
      let y := x * 10 + (c.toNat - 48)
      if y > 2 ^ 63 then leadingFraction cs x k true else leadingFraction cs y (k + 1) false

/-- `time.unitMap`. -/
def unitMap (u : Str) : Option Nat :=
  if u = "ns".toList then some 1
  else if u = "us".toList then some 1000
  else if u = [Char.ofNat 0xB5, 's'] then some 1000
  else if u = [Char.ofNat 0x3BC, 's'] then some 1000
  else if u = "ms".toList then some 1000000
  else if u = "s".toList then some 1000000000
  else if u = "m".toList then some 60000000000
  else if u = "h".toList then some 3600000000000
  else none

/-- Characters that end a unit name in `time.ParseDuration`. -/
def endsUnit (c : Char) : Bool := c == '.' || isDigit c

/-- The optional `.digits` part of a group in `time.ParseDuration`: numerator,
number of digits kept, what follows, and whether a digit was consumed. -/
def fractionPart (s1 : Str) : Nat × Nat × Str × Bool :=
  match s1 with
  | [] => (0, 0, s1, false)
  | c1 :: t =>
    if c1 == '.' then
      let r := leadingFraction t 0 0 false
      (r.1, r.2.1, r.2.2, t.length != r.2.2.length)
    else (0, 0, s1, false)

/-- Main loop of `time.ParseDuration`: one `number unit` group per round, `d`
the `uint64` total so far. Every round consumes a character, so `fuel = len(s)`
rounds are enough. -/
def parseDurationLoop (R : Runtime) : Nat → Str → Nat → Option Nat
  | _, [], d => some d
  | 0, _ :: _, _ => none
  | fuel + 1, c :: cs, d =>
    if !endsUnit c then none
    else
      match leadingInt (c :: cs) 0 with
      | none => none
      | some (v, s1) =>
        let pre := (c :: cs).length != s1.length
        let f := (fractionPart s1).1
        let k := (fractionPart s1).2.1
        let s2 := (fractionPart s1).2.2.1
        let post := (fractionPart s1).2.2.2
        if !pre && !post then none
        else
          let u := s2.takeWhile (fun x => !endsUnit x)
          let s3 := s2.dropWhile (fun x => !endsUnit x)
          if u.isEmpty then none
          else
            match unitMap u with
            | none => none
            | some unit =>
              if v > 2 ^ 63 / unit then none
              else
                let v1 := v * unit
                let v2 := if f > 0 then (v1 + R.fracNanos f unit k) % 2 ^ 64 else v1
                if f > 0 && v2 > 2 ^ 63 then none
                else
                  let d1 := (d + v2) % 2 ^ 64
                  if d1 > 2 ^ 63 then none else parseDurationLoop R fuel s3 d1

/-- `time.ParseDuration`: the duration in nanoseconds, `none` on error. -/
def parseDuration (R : Runtime) (s : Str) : Option Int :=
  let neg := s.head? == some '-'
  let s1 := if s.head? == some '-' || s.head? == some '+' then s.tail else s
  if s1 = ['0'] then some 0
  else if s1.isEmpty then none
  else
    match parseDurationLoop R s1.length s1 0 with
    | none => none
    | some d =>
      if neg then some (-(d : Int))
      else if d > 2 ^ 63 - 1 then none
      else some (d : Int)

/-- Go `looksLikeDuration`. -/
def looksLikeDuration (R : Runtime) (s : Str) : Bool := (parseDuration R s).isSome

/-! ## Duration normaliser -/

/-- Go `normalizeDuration`; `none` is `log.Fatalf`. -/
def normalizeDuration (s0 : Str) : Option Str :=
  let s := trimSpace s0
  if hasSuffix s "d".toList then
    match atoi (trimSuffix s "d".toList) with
    | none => none
    | some n => some (fmtInt (wrapInt64 (n * 24)) ++ "h".toList)
  else if hasSuffix s "w".toList then
    match atoi (trimSuffix s "w".toList) with
    | none => none
    | some n => some (fmtInt (wrapInt64 (wrapInt64 (n * 24) * 7)) ++ "h".toList)
  else if hasSuffix s "ms".toList || hasSuffix s "s".toList || hasSuffix s "m".toList
      || hasSuffix s "h".toList then
    some s
  else none

/-! ## `strconv.Quote` (the `%q` verb) -/

/-- The double quote character. -/
def dquote : Char := Char.ofNat 34

/-- The backslash character. -/
def backslash : Char := Char.ofNat 92

/-- `strconv.IsPrint`: Latin-1 is decided in the code, the rest by table. -/
def isPrint (R : Runtime) (c : Char) : Bool :=
  let n := c.toNat
  if n ≤ 0xFF then
    if 0x20 ≤ n && n ≤ 0x7E then true
    else if 0xA1 ≤ n && n ≤ 0xFF then n != 0xAD
    else false
  else R.isPrintTable c

/-- `lowerhex[n]`. -/
def hexDigit (n : Nat) : Char := "0123456789abcdef".toList.getD n '0'

/-- `strconv.appendEscapedRune` for `quote = '"'`, neither ASCII-only nor
graphic-only. Every `Char` is a valid rune, so the `!utf8.ValidRune` case of the
source does not arise. -/
def quoteRune (R : Runtime) (c : Char) : Str :=
  let n := c.toNat
  if c == dquote || c == backslash then [backslash, c]
  else if isPrint R c then [c]
  else if n == 7 then [backslash, 'a']
  else if n == 8 then [backslash, 'b']
  else if n == 12 then [backslash, 'f']
  else if n == 10 then [backslash, 'n']
  else if n == 13 then [backslash, 'r']
  else if n == 9 then [backslash, 't']
  else if n == 11 then [backslash, 'v']
  else if n < 0x20 || n == 0x7F then
    [backslash, 'x', hexDigit (n / 16 % 16), hexDigit (n % 16)]
  else if n < 0x10000 then
    [backslash, 'u', hexDigit (n / 4096 % 16), hexDigit (n / 256 % 16),
      hexDigit (n / 16 % 16), hexDigit (n % 16)]
  else
    [backslash, 'U', hexDigit (n / 268435456 % 16), hexDigit (n / 16777216 % 16),
      hexDigit (n / 1048576 % 16), hexDigit (n / 65536 % 16), hexDigit (n / 4096 % 16),
      hexDigit (n / 256 % 16), hexDigit (n / 16 % 16), hexDigit (n % 16)]

/-- Body of a quoted string: every rune escaped in turn. -/
def quoteBody (R : Runtime) : Str → Str
  | [] => []
  | c :: cs => quoteRune R c ++ quoteBody R cs

/-- `strconv.Quote`, which is `fmt.Sprintf("%q", s)` for a string. -/
def quote (R : Runtime) (s : Str) : Str := dquote :: (quoteBody R s ++ [dquote])

/-! ## Dynamically typed values -/

/-- What the YAML decoder stores in an `any`. -/
inductive Value where
  /-- Go `string`. -/
  | str (s : Str)
  /-- Go `int` or `int64`; the range is not restricted here. -/
  | int (n : Int)
  /-- Go `uint64`: a YAML integer above the largest `int64`. -/
  | uint64 (n : Nat)
  /-- Go `float64`, by its bits. -/
  | float64 (bits : Nat)
  /-- Go `bool`. -/
  | bool (b : Bool)
  /-- Go `[]any`. -/
  | list (xs : List Value)
  /-- Go `map[any]any`, its entries in stored order. -/
  | map (m : List (Value × Value))
  /-- Go `nil`. -/
  | null

/-- Whether the value is a string. -/
def Value.isStr : Value → Bool
  | .str _ => true
  | _ => false

/-- Whether the value is a `map[any]any` of length zero. -/
def Value.isEmptyMap : Value → Bool
  | .map m => m.isEmpty
  | _ => false

/-- Go `detectType`. -/
def detectType : Value → Str
  | .str _ => "string".toList
  | .int _ => "int".toList
  | .float64 _ => "float64".toList
  | .bool _ => "bool".toList
  | .map _ => "map[string]any".toList
  | .list _ => "[]any".toList
  | _ => "any".toList

/-- Go `getFirstMapKey`: the key of the first entry a `range` visits. -/
def getFirstMapKey (ρ : RangeOrder) (p : List Nat) (m : List (Value × Value)) : Value :=
  match rangeOver ρ p 3 m with
  | [] => Value.null
  | kv :: _ => kv.1

/-- Go `getFirstMapValue`: the value of the first entry a `range` visits. -/
def getFirstMapValue (ρ : RangeOrder) (p : List Nat) (m : List (Value × Value)) : Value :=
  match rangeOver ρ p 4 m with
  | [] => Value.null
  | kv :: _ => kv.2

/-- `fmt.Sprintf("%q", k)` for a map key `k`; the caller passes strings only. -/
def sprintfQ (R : Runtime) : Value → Str
  | .str s => quote R s
  | _ => []

/-- The format of the function literal up to the opening quote of its argument. -/
def funcLiteralHead : Str :=
  "func() time.Duration \x7b\n\t\t\t\td, _ := time.ParseDuration(".toList

/-- The format of the function literal after the closing quote of its argument. -/
def funcLiteralTail : Str := ")\n\t\t\t\treturn d\n\t\t\t\x7d()".toList

/-- The function literal emitted for a string that parses as a duration: the
format with `s` put in place of `%s`, between the two quotes. -/
def durationFuncLiteral (s : Str) : Str :=
  funcLiteralHead ++ [dquote] ++ s ++ [dquote] ++ funcLiteralTail

/-- `strings.Join(elems, ", ")`. -/
def joinComma (elems : List Str) : Str := List.intercalate ", ".toList elems

mutual
/-- Go `formatDefaultValue`; `none` is `log.Fatalf`. `p` is the path of `val`
inside the default being synthesised. The entries loop of the general map case
renders every entry (`formatEntries`) and appends the renderings in visiting order. -/
def formatDefaultValue (R : Runtime) (ρ : RangeOrder) (p : List Nat) (val : Value)
    (specType : Str) : Option Str :=
  match val with
  | .str s =>
    if specType = "duration".toList then
      match normalizeDuration s with
      | none => none
      | some t =>
        match parseDuration R t with
        | some d => some (fmtInt d ++ " * time.Nanosecond".toList)
        | none => none
    else if looksLikeDuration R s then some (durationFuncLiteral s)
    else some (quote R s)
  | .int n => some (fmtInt n)
  | .float64 bits => some (R.fmtFloat bits)
  | .bool b => some (if b then "true".toList else "false".toList)
  | .list xs =>
    match xs with
    | [] => some "[]any\x7b\x7d".toList
    | x :: _ =>
      match formatElems R ρ p 0 xs with
      | none => none
      | some elems =>
        some ("[]".toList ++ detectType x ++ "\x7b".toList ++ joinComma elems ++ "\x7d".toList)
  | .map m =>
    if m.isEmpty then some "map[any]any\x7b\x7d".toList
    else
      let allKeysAreStrings := (rangeOver ρ p 1 m).all (fun kv => kv.1.isStr)
      let allStructEmpty := (rangeOver ρ p 1 m).all (fun kv => kv.2.isEmptyMap)
      if allKeysAreStrings && allStructEmpty then
        let keys := (rangeOver ρ p 2 m).map
          (fun kv => sprintfQ R kv.1 ++ ": struct\x7b\x7d\x7b\x7d".toList)
        some ("map[string]struct\x7b\x7d\x7b".toList ++ joinComma keys ++ "\x7d".toList)
      else
        let keyType := detectType (getFirstMapKey ρ p m)
        let valType := detectType (getFirstMapValue ρ p m)
        match formatEntries R ρ p 0 m with
        | none => none
        | some rendered =>
          let entries := (ρ.visit p 5 m.length).filterMap (fun i => rendered[i]?)
          some ("map[".toList ++ keyType ++ "]".toList ++ valType ++ "\x7b".toList ++
            joinComma entries ++ "\x7d".toList)
  | .uint64 n => some ("0x".toList ++ Nat.toDigits 16 n)
  | .null => some "<nil>".toList
/-- The element loop of the list case: `formatDefaultValue(e, detectType(e))`
for every element, `i` the position of the first one. -/
def formatElems (R : Runtime) (ρ : RangeOrder) (p : List Nat) (i : Nat) :
    List Value → Option (List Str)
  | [] => some []
  | e :: es =>
    match formatDefaultValue R ρ (i :: p) e (detectType e) with
    | none => none
    | some lit =>
      match formatElems R ρ p (i + 1) es with
      | none => none
      | some lits => some (lit :: lits)
/-- The body of the entries loop of the general map case, for every stored
entry: `"%s: %s"` of the synthesised key and value. -/
def formatEntries (R : Runtime) (ρ : RangeOrder) (p : List Nat) (i : Nat) :
    List (Value × Value) → Option (List Str)
  | [] => some []
  | kv :: rest =>
    match formatDefaultValue R ρ ((2 * i) :: p) kv.1 (detectType kv.1) with
    | none => none
    | some klit =>
      match formatDefaultValue R ρ ((2 * i + 1) :: p) kv.2 (detectType kv.2) with
      | none => none
      | some vlit =>
        match formatEntries R ρ p (i + 1) rest with
        | none => none
        | some lits => some ((klit ++ ": ".toList ++ vlit) :: lits)
end

/-! ## Field descriptors -/

/-- `unicode.ToTitle`. -/
def toTitleRune (R : Runtime) (c : Char) : Char :=
  if c.toNat ≤ 0x7F then
    (if 97 ≤ c.toNat && c.toNat ≤ 122 then Char.ofNat (c.toNat - 32) else c)
  else R.toTitleTable c

/-- `strings.isSeparator`. -/
def isSeparator (R : Runtime) (c : Char) : Bool :=
  let n := c.toNat
  if n ≤ 0x7F then
    !(isDigit c || (97 ≤ n && n ≤ 122) || (65 ≤ n && n ≤ 90) || n == 95)
  else if R.isLetterTable c || R.isDigitTable c then false
  else isSpace c

/-- The mapping closure of `strings.Title`, `prev` the rune seen before. -/
def titleFrom (R : Runtime) : Char → Str → Str
  | _, [] => []
  | prev, c :: cs => (if isSeparator R prev then toTitleRune R c else c) :: titleFrom R c cs

/-- `strings.Title`. -/
def title (R : Runtime) (s : Str) : Str := titleFrom R ' ' s

/-- Go `toCamel`. -/
def toCamel (R : Runtime) (input : Str) : Str :=
  ((input.splitOn '_').map (title R)).flatten

/-- Go `FieldSpec`; `Typ` is its field `Type`. -/
structure FieldSpec where
  Typ : Str
  Default : Value
  Description : Str

/-- Go `Field`; `Typ` is its field `Type`. -/
structure Field where
  OriginalName : Str
  Name : Str
  VarName : Str
  Typ : Str
  Default : Str
  Description : Str
deriving DecidableEq

/-- Body of the loop of `parseFields` for the schema entry stored at position `i`. -/
def buildField (R : Runtime) (ρ : RangeOrder) (i : Nat) (name : Str) (spec : FieldSpec) :
    Option Field :=
  let goType := if spec.Typ = "duration".toList then "time.Duration".toList else spec.Typ
  match formatDefaultValue R ρ [i] spec.Default spec.Typ with
  | none => none
  | some lit => some (Field.mk name (toCamel R name) (toCamel R name) goType lit spec.Description)

/-- All results of a run of steps, `none` as soon as one step aborts. -/
def allSome {α : Type} : List (Option α) → Option (List α)
  | [] => some []
  | none :: _ => none
  | some a :: rest =>
    match allSome rest with
    | none => none
    | some as => some (a :: as)

/-- The schema entries with their stored positions, in visiting order. -/
def visitSchema (ρ : RangeOrder) (config : List (Str × FieldSpec)) :
    List (Nat × Str × FieldSpec) :=
  (ρ.visit [] 0 config.length).filterMap (fun i => (config[i]?).map (fun e => (i, e)))

/-- Go `parseFields`: the fields in visiting order and the `usesTime` flag;
`none` when a default aborts the run. -/
def parseFields (R : Runtime) (ρ : RangeOrder) (config : List (Str × FieldSpec)) :
    Option (List Field × Bool) :=
  match allSome ((visitSchema ρ config).map (fun e => buildField R ρ e.1 e.2.1 e.2.2)) with
  | none => none
  | some fields =>
    some (fields, (visitSchema ρ config).any (fun e => e.2.2.Typ == "duration".toList))

/-! ## Concrete parameters for worked examples -/

/-- A runtime whose tables are empty outside the ranges decided in code, whose
fraction step yields zero and whose float rendering is empty. -/
def Runtime.basic : Runtime :=
  ⟨fun _ => false, fun _ _ _ => 0, fun _ => [], fun _ => false, fun _ => false, id⟩

/-- Reverse order for the loop over the schema, stored order for every nested map. -/
def RangeOrder.reversedTop : RangeOrder where
  visit := fun p _ n => if p = [] then (List.range n).reverse else List.range n
  perm := fun p _ n => by
    by_cases h : p = []
    · simp only [h, if_true]
      exact List.reverse_perm (List.range n)
    · simp only [h, if_false]
      exact List.Perm.refl _

/-- A schema with two entries, a string field and a declared duration. -/
def schemaTwo : List (Str × FieldSpec) :=
  [("app_name".toList, FieldSpec.mk "string".toList (Value.str "myapp".toList) "name".toList),
    ("timeout".toList, FieldSpec.mk "duration".toList (Value.str "5s".toList) "wait".toList)]

/-- The Field built for `app_name` in `schemaTwo`. -/
def fieldAppName : Field :=
  Field.mk "app_name".toList "AppName".toList "AppName".toList "string".toList
    (quote Runtime.basic "myapp".toList) "name".toList

/-- The Field built for `timeout` in `schemaTwo`. -/
def fieldTimeout : Field :=
  Field.mk "timeout".toList "Timeout".toList "Timeout".toList "time.Duration".toList
    "5000000000 * time.Nanosecond".toList "wait".toList

/-- The mapping default `{"warning": 70, "critical": 90}`. -/
def thresholds : Value :=
  Value.map [(Value.str "warning".toList, Value.int 70),
    (Value.str "critical".toList, Value.int 90)]

/-- A schema whose two field names differ only by a doubled underscore. -/
def schemaCollide : List (Str × FieldSpec) :=
  [("a_b".toList, FieldSpec.mk "int".toList (Value.int 1) "first".toList),
    ("a__b".toList, FieldSpec.mk "int".toList (Value.int 2) "second".toList)]

/-- A schema with one field whose type tag is the Go type `time.Duration` and
whose default is the string `"5s"`. -/
def schemaInferred : List (Str × FieldSpec) :=
  [("timeout".toList,
    FieldSpec.mk "time.Duration".toList (Value.str "5s".toList) "wait".toList)]

/-! ## Specification-side notions -/

/-- Spelling of an integer as `strconv.Atoi` accepts it on a 64-bit platform: an
optional sign, then a non-empty run of decimal digits, the signed value within
`[-2^63, 2^63 - 1]`. -/
def IsInt64Literal (m : Str) : Prop :=
  ∃ (ds : Str) (n : Nat), ds ≠ [] ∧ digitsValue ds 0 = some n ∧
    ((m = ds ∧ n < 2 ^ 63) ∨ (m = '+' :: ds ∧ n < 2 ^ 63) ∨ (m = '-' :: ds ∧ n ≤ 2 ^ 63))

/-- Lower-case ASCII letters, ASCII digits and the underscore. -/
def isSnakeChar (c : Char) : Bool :=
  (97 ≤ c.toNat && c.toNat ≤ 122) || (48 ≤ c.toNat && c.toNat ≤ 57) || c.toNat == 95

/-- A word with its first character upper-cased and the rest unchanged. -/
def capitalize : Str → Str
  | [] => []
  | c :: cs => c.toUpper :: cs

/-! ## Reading a synthesised scalar literal back as a Go expression -/

/-- What a literal emitted for a scalar default denotes. -/
inductive GoValue where
  /-- A `string` constant. -/
  | str (s : Str)
  /-- An integer constant. -/
  | int (n : Int)
  /-- A `bool` constant. -/
  | bool (b : Bool)
  /-- A `time.Duration`, in nanoseconds. -/
  | duration (ns : Int)
deriving DecidableEq

/-- Value of a hexadecimal digit. -/
def hexVal (c : Char) : Option Nat :=
  let n := c.toNat
  if 48 ≤ n && n ≤ 57 then some (n - 48)
  else if 97 ≤ n && n ≤ 102 then some (n - 87)
  else if 65 ≤ n && n ≤ 70 then some (n - 55)
  else none

/-- The code point `n`, when `n` is a Unicode scalar value. -/
def runeOf (n : Nat) : Option Char := if n.isValidChar then some (Char.ofNat n) else none

/-- A byte given by an escape, as a code point; bytes above 0x7F are not
code points and have no denotation here. -/
def byteRune (n : Nat) : Option Char := if n < 0x80 then some (Char.ofNat n) else none

/-- Puts `c` before the string read from the rest. -/
def consRune (c : Option Char) (rest : Option Str) : Option Str :=
  match c, rest with
  | some a, some s => some (a :: s)
  | _, _ => none

/-- Where the reader of an interpreted string literal stands. -/
inductive Esc where
  /-- Outside any escape. -/
  | plain
  /-- Right after a backslash. -/
  | slash
  /-- Inside `\x`, `\u` or `\U`: hexadecimal digits still to read, value so far,
  and whether the escape gives a byte (`\x`) or a code point. -/
  | hex (left : Nat) (acc : Nat) (byte : Bool)
  /-- Inside an octal escape: digits still to read and value so far. -/
  | oct (left : Nat) (acc : Nat)

/-- Denotation of an interpreted string literal after its opening quote, by the
Go language specification, read one character at a time: plain characters stand
for themselves, a newline is not allowed, a backslash starts one of the escapes
`\a \b \f \n \r \t \v \\ \"`, `\xHH`, `\uHHHH`, `\UHHHHHHHH` or three octal
digits, and the closing quote ends the text. -/
def unquoteFrom : Esc → Str → Option Str
  | _, [] => none
  | Esc.plain, c :: rest =>
    if c == dquote then (if rest.isEmpty then some [] else none)
    else if c.toNat == 10 then none
    else if c == backslash then unquoteFrom Esc.slash rest
    else consRune (some c) (unquoteFrom Esc.plain rest)
  | Esc.slash, e :: rest =>
    if e == 'a' then consRune (some (Char.ofNat 7)) (unquoteFrom Esc.plain rest)
    else if e == 'b' then consRune (some (Char.ofNat 8)) (unquoteFrom Esc.plain rest)
    else if e == 'f' then consRune (some (Char.ofNat 12)) (unquoteFrom Esc.plain rest)
    else if e == 'n' then consRune (some (Char.ofNat 10)) (unquoteFrom Esc.plain rest)
    else if e == 'r' then consRune (some (Char.ofNat 13)) (unquoteFrom Esc.plain rest)
    else if e == 't' then consRune (some (Char.ofNat 9)) (unquoteFrom Esc.plain rest)
    else if e == 'v' then consRune (some (Char.ofNat 11)) (unquoteFrom Esc.plain rest)
    else if e == backslash then consRune (some backslash) (unquoteFrom Esc.plain rest)
    else if e == dquote then consRune (some dquote) (unquoteFrom Esc.plain rest)
    else if e == 'x' then unquoteFrom (Esc.hex 2 0 true) rest
    else if e == 'u' then unquoteFrom (Esc.hex 4 0 false) rest
    else if e == 'U' then unquoteFrom (Esc.hex 8 0 false) rest
    else if 48 ≤ e.toNat && e.toNat ≤ 55 then unquoteFrom (Esc.oct 2 (e.toNat - 48)) rest
    else none
  | Esc.hex left acc byte, h :: rest =>
    match hexVal h with
    | none => none
    | some d =>
      if left ≤ 1 then
        consRune (if byte then byteRune (acc * 16 + d) else runeOf (acc * 16 + d))
          (unquoteFrom Esc.plain rest)
      else unquoteFrom (Esc.hex (left - 1) (acc * 16 + d) byte) rest
  | Esc.oct left acc, o :: rest =>
    if 48 ≤ o.toNat && o.toNat ≤ 55 then
      if left ≤ 1 then
        consRune (if acc * 8 + (o.toNat - 48) < 256 then byteRune (acc * 8 + (o.toNat - 48))
          else none) (unquoteFrom Esc.plain rest)
      else unquoteFrom (Esc.oct (left - 1) (acc * 8 + (o.toNat - 48))) rest
    else none

/-- Denotation of the text that follows the opening quote of a string literal. -/
def unquoteBody (s : Str) : Option Str := unquoteFrom Esc.plain s

/-- Value of a Go decimal integer literal: `0`, or a non-zero digit followed by digits. -/
def decimalLit (ds : Str) : Option Nat :=
  if ds = ['0'] then some 0
  else
    match ds with
    | [] => none
    | c :: _ => if c == '0' then none else digitsValue ds 0

/-- What the literal of a scalar default denotes: a quoted string, `true` or
`false`, a decimal integer with an optional minus sign, or the function literal
of `durationFuncLiteral`, which yields the duration parsed from its argument
and zero when the argument does not parse (the error is discarded). -/
def evalLiteral (R : Runtime) (lit : Str) : Option GoValue :=
  if lit = "true".toList then some (GoValue.bool true)
  else if lit = "false".toList then some (GoValue.bool false)
  else
    match lit with
    | [] => none
    | c :: rest =>
      if c == dquote then (unquoteBody rest).map GoValue.str
      else if c == '-' then (decimalLit rest).map (fun n => GoValue.int (-(n : Int)))
      else if isDigit c then (decimalLit lit).map (fun n => GoValue.int (n : Int))
      else if funcLiteralHead.isPrefixOf lit && hasSuffix lit funcLiteralTail then
        match (lit.drop funcLiteralHead.length).take
            (lit.length - funcLiteralHead.length - funcLiteralTail.length) with
        | [] => none
        | q :: arg =>
          if q == dquote then
            (unquoteBody arg).map (fun a => GoValue.duration ((parseDuration R a).getD 0))
          else none
      else none

/-! ## Lemmas on the string helpers -/


theorem hasSuffix_iff (s suf : Str) : hasSuffix s suf = true ↔ suf <:+ s := by
  unfold hasSuffix
  constructor
  · intro h
    simp only [Bool.and_eq_true, decide_eq_true_eq, beq_iff_eq] at h
    exact ⟨s.take (s.length - suf.length), by
      have := List.take_append_drop (s.length - suf.length) s
      rw [h.2] at this
      exact this⟩
  · rintro ⟨t, rfl⟩
    simp

theorem hasSuffix_append (t suf : Str) : hasSuffix (t ++ suf) suf = true :=
  (hasSuffix_iff _ _).2 ⟨t, rfl⟩

theorem trimSuffix_append (t suf : Str) : trimSuffix (t ++ suf) suf = t := by
  simp [trimSuffix, hasSuffix_append]

theorem hasSuffix_singleton (s : Str) (c : Char) :
    hasSuffix s [c] = true ↔ s.getLast? = some c := by
  rw [hasSuffix_iff]
  constructor
  · rintro ⟨t, rfl⟩
    simp
  · intro h
    exact ⟨s.dropLast, List.dropLast_append_getLast? c h⟩

theorem hasSuffix_singleton_false (s : Str) (c : Char) (h : s.getLast? ≠ some c) :
    hasSuffix s [c] = false := by
  cases hs : hasSuffix s [c]
  · rfl
  · exact absurd ((hasSuffix_singleton s c).1 hs) h

/-! ## Declared durations (C1) -/

/-- C1: when `normalizeDuration s` succeeds with `t` and `t` parses as a native
duration of `d` nanoseconds, `formatDefaultValue(s, "duration")` returns the
decimal rendering of `d` followed by `" * time.Nanosecond"`. -/
theorem formatDefaultValue_declared_duration (R : Runtime) (ρ : RangeOrder) (p : List Nat)
    (s t : Str) (d : Int) (hn : normalizeDuration s = some t) (hp : parseDuration R t = some d) :
    formatDefaultValue R ρ p (Value.str s) "duration".toList =
      some (fmtInt d ++ " * time.Nanosecond".toList) := by
  simp [formatDefaultValue, hn, hp]

/-- C1 at the default `"1d"`: it normalises to `"24h"`, which is 86400000000000 ns. -/
theorem formatDefaultValue_declared_duration_witness :
    normalizeDuration "1d".toList = some "24h".toList ∧
    parseDuration Runtime.basic "24h".toList = some 86400000000000 ∧
    formatDefaultValue Runtime.basic RangeOrder.stored [] (Value.str "1d".toList)
      "duration".toList = some "86400000000000 * time.Nanosecond".toList :=
  ⟨by decide, by decide,
    formatDefaultValue_declared_duration Runtime.basic RangeOrder.stored [] "1d".toList
      "24h".toList 86400000000000 (by decide) (by decide)⟩

/-! ## Day and week suffixes (C2) -/

theorem trimSpace_eq_self (s : Str) (hh : ∀ c, s.head? = some c → isSpace c = false)
    (hl : ∀ c, s.getLast? = some c → isSpace c = false) : trimSpace s = s := by
  have h1 : s.dropWhile isSpace = s := by
    cases s with
    | nil => rfl
    | cons a r => simp [List.dropWhile, hh a rfl]
  unfold trimSpace
  rw [h1]
  change List.rdropWhile isSpace s = s
  rw [List.rdropWhile_eq_self_iff]
  intro hne
  have := hl (s.getLast hne) (List.getLast?_eq_getLast s hne)
  simp [this]

theorem digitsValue_head_isDigit (c : Char) (cs : Str) (acc n : Nat)
    (h : digitsValue (c :: cs) acc = some n) : isDigit c = true := by
  unfold digitsValue at h
  by_cases hc : isDigit c = true
  · exact hc
  · simp [hc] at h

theorem isDigit_not_space (c : Char) (h : isDigit c = true) : isSpace c = false := by
  simp only [isDigit, Bool.and_eq_true, decide_eq_true_eq] at h
  simp only [isSpace, Bool.or_eq_false_iff, Bool.and_eq_false_iff, decide_eq_false_iff_not,
    beq_eq_false_iff_ne, ne_eq]
  omega

theorem isDigit_ne_sign (c : Char) (h : isDigit c = true) :
    (c == '-') = false ∧ (c == '+') = false := by
  constructor <;>
  · rw [beq_eq_false_iff_ne]
    intro hc
    subst hc
    revert h
    decide

theorem atoi_digits (ds : Str) (n : Nat) (hne : ds ≠ []) (hd : digitsValue ds 0 = some n)
    (hn : n < 2 ^ 63) : atoi ds = some (n : Int) := by
  cases ds with
  | nil => exact absurd rfl hne
  | cons c cs =>
    have hc := digitsValue_head_isDigit c cs 0 n hd
    have hs := isDigit_ne_sign c hc
    have hn1 : n < 9223372036854775808 := by omega
    simp [atoi, hs.1, hs.2, hd, hn1]

theorem atoi_digits_range (ds : Str) (n : Nat) (hne : ds ≠ [])
    (hd : digitsValue ds 0 = some n) (hn : 2 ^ 63 ≤ n) : atoi ds = none := by
  cases ds with
  | nil => exact absurd rfl hne
  | cons c cs =>
    have hc := digitsValue_head_isDigit c cs 0 n hd
    have hs := isDigit_ne_sign c hc
    have hn1 : ¬ n < 9223372036854775808 := by omega
    simp [atoi, hs.1, hs.2, hd, hn1]

theorem wrapInt64_eq_self (x : Int) (h1 : -(2 ^ 63) ≤ x) (h2 : x < 2 ^ 63) :
    wrapInt64 x = x := by
  unfold wrapInt64
  omega

theorem fmtInt_natCast (n : Nat) : fmtInt (n : Int) = Nat.toDigits 10 n := rfl

/-- A run of digits followed by a letter is its own `TrimSpace`. -/
theorem trimSpace_digits_suffix (ds : Str) (n : Nat) (c : Char) (hne : ds ≠ [])
    (hd : digitsValue ds 0 = some n) (hc : isSpace c = false) :
    trimSpace (ds ++ [c]) = ds ++ [c] := by
  apply trimSpace_eq_self
  · intro a ha
    cases ds with
    | nil => exact absurd rfl hne
    | cons b bs =>
      simp only [List.cons_append, List.head?_cons, Option.some.injEq] at ha
      subst ha
      exact isDigit_not_space _ (digitsValue_head_isDigit _ bs 0 n hd)
  · intro a ha
    simp only [List.getLast?_append, List.getLast?_singleton, Option.or,
      Option.some.injEq] at ha
    subst ha
    exact hc

/-- C2 (amended): for a decimal magnitude `ds` of value `N`, `normalizeDuration`
of `ds` followed by `"d"` is the decimal rendering of `N*24` followed by `"h"`
when `N*24` fits a 64-bit `int`, and of `ds` followed by `"w"` it is the decimal
rendering of `N*168` followed by `"h"` when `N*168` fits; when `N` itself does not
fit a 64-bit `int`, both abort; `"1d"` and `"24h"`, and `"2w"` and `"336h"`,
normalise to the same string. -/
theorem normalizeDuration_days_weeks (ds : Str) (N : Nat) (hne : ds ≠ [])
    (hd : digitsValue ds 0 = some N) :
    (N * 24 < 2 ^ 63 →
      normalizeDuration (ds ++ "d".toList) = some (Nat.toDigits 10 (N * 24) ++ "h".toList)) ∧
    (N * 168 < 2 ^ 63 →
      normalizeDuration (ds ++ "w".toList) = some (Nat.toDigits 10 (N * 168) ++ "h".toList)) ∧
    (2 ^ 63 ≤ N →
      normalizeDuration (ds ++ "d".toList) = none ∧ normalizeDuration (ds ++ "w".toList) = none) ∧
    normalizeDuration "1d".toList = normalizeDuration "24h".toList ∧
    normalizeDuration "2w".toList = normalizeDuration "336h".toList := by
  refine ⟨?_, ?_, ?_, by decide, by decide⟩
  · intro hN
    have ht : trimSpace (ds ++ "d".toList) = ds ++ "d".toList :=
      trimSpace_digits_suffix ds N 'd' hne hd (by decide)
    have ha : atoi ds = some (N : Int) := atoi_digits ds N hne hd (by omega)
    have hw : wrapInt64 ((N : Int) * 24) = ((N * 24 : Nat) : Int) := by
      rw [wrapInt64_eq_self] <;> push_cast <;> omega
    unfold normalizeDuration
    simp only [ht, hasSuffix_append, trimSuffix_append, ha, if_true, hw, fmtInt_natCast]
  · intro hN
    have ht : trimSpace (ds ++ "w".toList) = ds ++ "w".toList :=
      trimSpace_digits_suffix ds N 'w' hne hd (by decide)
    have ha : atoi ds = some (N : Int) := atoi_digits ds N hne hd (by omega)
    have hw1 : wrapInt64 ((N : Int) * 24) = (N : Int) * 24 := by
      rw [wrapInt64_eq_self] <;> omega
    have hw : wrapInt64 (wrapInt64 ((N : Int) * 24) * 7) = ((N * 168 : Nat) : Int) := by
      rw [hw1, wrapInt64_eq_self] <;> push_cast <;> omega
    have hnd : hasSuffix (ds ++ "w".toList) "d".toList = false :=
      hasSuffix_singleton_false _ _ (by simp)
    unfold normalizeDuration
    simp only [ht, hnd, hasSuffix_append, trimSuffix_append, ha, if_true, hw, fmtInt_natCast]
    simp
  · intro hN
    have ha : atoi ds = none := atoi_digits_range ds N hne hd hN
    have htd : trimSpace (ds ++ "d".toList) = ds ++ "d".toList :=
      trimSpace_digits_suffix ds N 'd' hne hd (by decide)
    have htw : trimSpace (ds ++ "w".toList) = ds ++ "w".toList :=
      trimSpace_digits_suffix ds N 'w' hne hd (by decide)
    have hnd : hasSuffix (ds ++ "w".toList) "d".toList = false :=
      hasSuffix_singleton_false _ _ (by simp)
    constructor
    · unfold normalizeDuration
      simp only [htd, hasSuffix_append, trimSuffix_append, ha, if_true]
    · unfold normalizeDuration
      simp only [htw, hnd, hasSuffix_append, trimSuffix_append, ha, if_true]
      simp

/-- C2 at the magnitude `"7"`: `"7d"` gives `"168h"` and `"7w"` gives `"1176h"`. -/
theorem normalizeDuration_days_weeks_witness :
    normalizeDuration "7d".toList = some "168h".toList ∧
    normalizeDuration "7w".toList = some "1176h".toList :=
  have h := normalizeDuration_days_weeks "7".toList 7 (by decide) (by decide)
  ⟨h.1 (by decide), h.2.1 (by decide)⟩

/-- C2 as stated fails: the magnitude 2305843009213693952 is a valid `int`, its
product with 24 is 55340232221128654848, yet the result is `"0h"` because the
multiplication wraps; and the decimal magnitude 9223372036854775808 is rejected. -/
theorem normalizeDuration_days_counterexample :
    digitsValue "2305843009213693952".toList 0 = some 2305843009213693952 ∧
    normalizeDuration "2305843009213693952d".toList = some "0h".toList ∧
    Nat.toDigits 10 (2305843009213693952 * 24) ++ "h".toList = "55340232221128654848h".toList ∧
    normalizeDuration "9223372036854775808d".toList = none := by
  decide

/-! ## Failure domain and native suffixes (C3, C4) -/

theorem atoi_eq_none_iff (m : Str) : atoi m = none ↔ ¬ IsInt64Literal m := by
  cases m with
  | nil =>
    simp only [atoi, true_iff]
    rintro ⟨ds, n, hne, hd, h | h | h⟩
    · exact hne h.1.symm
    · exact List.noConfusion h.1
    · exact List.noConfusion h.1
  | cons c rest =>
    by_cases hm : c = '-'
    · subst hm
      have key : IsInt64Literal ('-' :: rest) ↔
          ∃ n, rest ≠ [] ∧ digitsValue rest 0 = some n ∧ n ≤ 2 ^ 63 := by
        constructor
        · rintro ⟨ds, n, hne, hd, h | h | h⟩
          · rw [← h.1] at hd
            exact absurd (digitsValue_head_isDigit _ _ _ _ hd) (by decide)
          · exact absurd (List.cons.inj h.1).1 (by decide)
          · rw [← (List.cons.inj h.1).2] at hne hd
            exact ⟨n, hne, hd, h.2⟩
        · rintro ⟨n, hne, hd, hn⟩
          exact ⟨rest, n, hne, hd, Or.inr (Or.inr ⟨rfl, hn⟩)⟩
      rw [key]
      cases rest with
      | nil => simp [atoi]
      | cons a r =>
        cases hd : digitsValue (a :: r) 0 with
        | none => simp [atoi, hd]
        | some n =>
          by_cases hn : n ≤ 2 ^ 63
          · have hn1 : n ≤ 9223372036854775808 := by omega
            simp [atoi, hd, hn1]
          · have hn1 : ¬ n ≤ 9223372036854775808 := by omega
            simp [atoi, hd, hn1]
    · by_cases hp : c = '+'
      · subst hp
        have key : IsInt64Literal ('+' :: rest) ↔
            ∃ n, rest ≠ [] ∧ digitsValue rest 0 = some n ∧ n < 2 ^ 63 := by
          constructor
          · rintro ⟨ds, n, hne, hd, h | h | h⟩
            · rw [← h.1] at hd
              exact absurd (digitsValue_head_isDigit _ _ _ _ hd) (by decide)
            · rw [← (List.cons.inj h.1).2] at hne hd
              exact ⟨n, hne, hd, h.2⟩
            · exact absurd (List.cons.inj h.1).1 (by decide)
          · rintro ⟨n, hne, hd, hn⟩
            exact ⟨rest, n, hne, hd, Or.inr (Or.inl ⟨rfl, hn⟩)⟩
        rw [key]
        cases rest with
        | nil => simp [atoi]
        | cons a r =>
          cases hd : digitsValue (a :: r) 0 with
          | none => simp [atoi, hd]
          | some n =>
            by_cases hn : n < 2 ^ 63
            · have hn1 : n < 9223372036854775808 := by omega
              simp [atoi, hd, hn1]
            · have hn1 : ¬ n < 9223372036854775808 := by omega
              simp [atoi, hd, hn1]
      · have key : IsInt64Literal (c :: rest) ↔
            ∃ n, digitsValue (c :: rest) 0 = some n ∧ n < 2 ^ 63 := by
          constructor
          · rintro ⟨ds, n, hne, hd, h | h | h⟩
            · rw [← h.1] at hd
              exact ⟨n, hd, h.2⟩
            · exact absurd (List.cons.inj h.1).1 hp
            · exact absurd (List.cons.inj h.1).1 hm
          · rintro ⟨n, hd, hn⟩
            exact ⟨c :: rest, n, List.cons_ne_nil _ _, hd, Or.inl ⟨rfl, hn⟩⟩
        rw [key]
        cases hd : digitsValue (c :: rest) 0 with
        | none => simp [atoi, hm, hp, hd]
        | some n =>
          by_cases hn : n < 2 ^ 63
          · have hn1 : n < 9223372036854775808 := by omega
            simp [atoi, hm, hp, hd, hn1]
          · have hn1 : ¬ n < 9223372036854775808 := by omega
            simp [atoi, hm, hp, hd, hn1]

theorem trimSuffix_singleton (t : Str) (c : Char) (h : hasSuffix t [c] = true) :
    trimSuffix t [c] = t.dropLast := by
  obtain ⟨b, rfl⟩ := (hasSuffix_iff t [c]).1 h
  rw [trimSuffix_append, List.dropLast_concat]

/-- C3 (amended): with `t` the input stripped of surrounding white space,
`normalizeDuration` aborts exactly when `t` ends in none of `ms`, `s`, `m`, `h`,
`d`, `w`, or `t` ends in `d` or `w` and what precedes that letter is not an
optionally signed decimal integer within the 64-bit `int` range; in every other
case it returns a string. -/
theorem normalizeDuration_eq_none_iff (s : Str) :
    normalizeDuration s = none ↔
      ((¬ "ms".toList <:+ trimSpace s ∧ ¬ "s".toList <:+ trimSpace s ∧
          ¬ "m".toList <:+ trimSpace s ∧ ¬ "h".toList <:+ trimSpace s ∧
          ¬ "d".toList <:+ trimSpace s ∧ ¬ "w".toList <:+ trimSpace s) ∨
        (("d".toList <:+ trimSpace s ∨ "w".toList <:+ trimSpace s) ∧
          ¬ IsInt64Literal (trimSpace s).dropLast)) := by
  simp only [← hasSuffix_iff, ← atoi_eq_none_iff]
  unfold normalizeDuration
  by_cases hd : hasSuffix (trimSpace s) "d".toList = true
  · have ht := trimSuffix_singleton (trimSpace s) 'd' hd
    change trimSuffix (trimSpace s) "d".toList = _ at ht
    simp only [hd, if_true, ht]
    cases ha : atoi (trimSpace s).dropLast <;> simp
  · by_cases hw : hasSuffix (trimSpace s) "w".toList = true
    · have ht := trimSuffix_singleton (trimSpace s) 'w' hw
      change trimSuffix (trimSpace s) "w".toList = _ at ht
      simp only [hd, hw, if_true, ht]
      cases ha : atoi (trimSpace s).dropLast <;> simp
    · simp only [hd, hw, Bool.false_eq_true, if_false]
      cases h1 : hasSuffix (trimSpace s) "ms".toList <;>
      cases h2 : hasSuffix (trimSpace s) "s".toList <;>
      cases h3 : hasSuffix (trimSpace s) "m".toList <;>
      cases h4 : hasSuffix (trimSpace s) "h".toList <;>
      simp

/-- Rejected inputs: the empty string, `"10x"`, `"1.5d"` and `"d"` abort. -/
theorem normalizeDuration_rejected_examples :
    normalizeDuration [] = none ∧ normalizeDuration "10x".toList = none ∧
    normalizeDuration "1.5d".toList = none ∧ normalizeDuration "d".toList = none := by
  decide

/-- C3 as stated fails: `"10s "` ends in none of the six suffixes, yet
`normalizeDuration` succeeds on it, because the input is trimmed first; and
`"9223372036854775808d"` has an integer magnitude, yet it is rejected. -/
theorem normalizeDuration_fails_counterexample :
    (∀ suf ∈ ["ms".toList, "s".toList, "m".toList, "h".toList, "d".toList, "w".toList],
      hasSuffix "10s ".toList suf = false) ∧
    normalizeDuration "10s ".toList = some "10s".toList ∧
    digitsValue "9223372036854775808".toList 0 = some 9223372036854775808 ∧
    normalizeDuration "9223372036854775808d".toList = none := by
  decide

theorem getLast?_dropWhile_isSpace (s : Str) (c : Char) (h : s.getLast? = some c)
    (hc : isSpace c = false) : (s.dropWhile isSpace).getLast? = some c := by
  have hs : s = s.dropLast ++ [c] := (List.dropLast_append_getLast? c h).symm
  rw [hs, List.dropWhile_append]
  split
  · simp [List.dropWhile, hc]
  · simp

theorem trimSpace_of_getLast? (s : Str) (c : Char) (h : s.getLast? = some c)
    (hc : isSpace c = false) :
    trimSpace s = s.dropWhile isSpace ∧ (trimSpace s).getLast? = some c := by
  have h1 := getLast?_dropWhile_isSpace s c h hc
  have h2 : trimSpace s = s.dropWhile isSpace := by
    change List.rdropWhile isSpace (s.dropWhile isSpace) = _
    rw [List.rdropWhile_eq_self_iff]
    intro hne
    have h3 := List.getLast?_eq_getLast _ hne
    rw [h1] at h3
    rw [← Option.some.inj h3]
    simp [hc]
  exact ⟨h2, by rw [h2]; exact h1⟩

theorem getLast?_of_hasSuffix (s suf : Str) (c : Char) (h : hasSuffix s suf = true)
    (hs : suf.getLast? = some c) : s.getLast? = some c := by
  obtain ⟨b, rfl⟩ := (hasSuffix_iff s suf).1 h
  simp [hs]

/-- C4 (amended): for every input that ends with `ms`, `s`, `m` or `h`,
`normalizeDuration` returns the input without its leading white space, which is
the input itself when it does not start with white space. -/
theorem normalizeDuration_native (s : Str)
    (h : (hasSuffix s "ms".toList || hasSuffix s "s".toList || hasSuffix s "m".toList ||
      hasSuffix s "h".toList) = true) :
    normalizeDuration s = some (s.dropWhile isSpace) ∧
    ((∀ c, s.head? = some c → isSpace c = false) → normalizeDuration s = some s) := by
  have hlast : s.getLast? = some 's' ∨ s.getLast? = some 'm' ∨ s.getLast? = some 'h' := by
    simp only [Bool.or_eq_true] at h
    rcases h with ((h | h) | h) | h
    · exact Or.inl (getLast?_of_hasSuffix s _ 's' h (by decide))
    · exact Or.inl (getLast?_of_hasSuffix s _ 's' h (by decide))
    · exact Or.inr (Or.inl (getLast?_of_hasSuffix s _ 'm' h (by decide)))
    · exact Or.inr (Or.inr (getLast?_of_hasSuffix s _ 'h' h (by decide)))
  have main : normalizeDuration s = some (s.dropWhile isSpace) := by
    rcases hlast with hl | hl | hl
    · obtain ⟨ht, hg⟩ := trimSpace_of_getLast? s 's' hl (by decide)
      have hd : hasSuffix (trimSpace s) "d".toList = false :=
        hasSuffix_singleton_false _ _ (by rw [hg]; decide)
      have hw : hasSuffix (trimSpace s) "w".toList = false :=
        hasSuffix_singleton_false _ _ (by rw [hg]; decide)
      have hs : hasSuffix (trimSpace s) "s".toList = true := (hasSuffix_singleton _ _).2 hg
      unfold normalizeDuration
      simp only [hd, hw, hs, Bool.or_true, Bool.true_or, if_true, Bool.false_eq_true, if_false]
      rw [ht]
    · obtain ⟨ht, hg⟩ := trimSpace_of_getLast? s 'm' hl (by decide)
      have hd : hasSuffix (trimSpace s) "d".toList = false :=
        hasSuffix_singleton_false _ _ (by rw [hg]; decide)
      have hw : hasSuffix (trimSpace s) "w".toList = false :=
        hasSuffix_singleton_false _ _ (by rw [hg]; decide)
      have hs : hasSuffix (trimSpace s) "m".toList = true := (hasSuffix_singleton _ _).2 hg
      unfold normalizeDuration
      simp only [hd, hw, hs, Bool.or_true, Bool.true_or, if_true, Bool.false_eq_true, if_false]
      rw [ht]
    · obtain ⟨ht, hg⟩ := trimSpace_of_getLast? s 'h' hl (by decide)
      have hd : hasSuffix (trimSpace s) "d".toList = false :=
        hasSuffix_singleton_false _ _ (by rw [hg]; decide)
      have hw : hasSuffix (trimSpace s) "w".toList = false :=
        hasSuffix_singleton_false _ _ (by rw [hg]; decide)
      have hs : hasSuffix (trimSpace s) "h".toList = true := (hasSuffix_singleton _ _).2 hg
      unfold normalizeDuration
      simp only [hd, hw, hs, Bool.or_true, Bool.true_or, if_true, Bool.false_eq_true, if_false]
      rw [ht]
  refine ⟨main, fun hh => ?_⟩
  rw [main]
  cases s with
  | nil => rfl
  | cons a r => simp [List.dropWhile, hh a rfl]

/-- C4 at `" 5s"` (leading blank dropped) and at `"250ms"` (returned as is). -/
theorem normalizeDuration_native_witness :
    normalizeDuration " 5s".toList = some "5s".toList ∧
    normalizeDuration "250ms".toList = some "250ms".toList :=
  ⟨(normalizeDuration_native " 5s".toList (by decide)).1,
    (normalizeDuration_native "250ms".toList (by decide)).2 (by decide)⟩

/-- C4 as stated fails: `" 5s"` ends with the native suffix `s`, and the result
is `"5s"`, not the input. -/
theorem normalizeDuration_native_counterexample :
    hasSuffix " 5s".toList "s".toList = true ∧
    normalizeDuration " 5s".toList = some "5s".toList ∧
    normalizeDuration " 5s".toList ≠ some " 5s".toList := by
  decide

/-! ## Form of a declared-duration literal (C5) -/

/-- C5 (amended): for every string default for which
`formatDefaultValue(value, "duration")` returns a literal, the literal is an
integer, the nanosecond count of the normalised string, followed by
`" * time.Nanosecond"`; it is never the run-time parsing function literal. -/
theorem formatDefaultValue_duration_form (R : Runtime) (ρ : RangeOrder) (p : List Nat)
    (s lit : Str)
    (h : formatDefaultValue R ρ p (Value.str s) "duration".toList = some lit) :
    (∃ (t : Str) (d : Int), normalizeDuration s = some t ∧ parseDuration R t = some d ∧
      lit = fmtInt d ++ " * time.Nanosecond".toList) ∧
    lit ≠ durationFuncLiteral s := by
  have key : ∃ (t : Str) (d : Int), normalizeDuration s = some t ∧ parseDuration R t = some d ∧
      lit = fmtInt d ++ " * time.Nanosecond".toList := by
    cases hn : normalizeDuration s with
    | none => simp [formatDefaultValue, hn] at h
    | some t =>
      cases hp : parseDuration R t with
      | none => simp [formatDefaultValue, hn, hp] at h
      | some d =>
        refine ⟨t, d, rfl, hp, ?_⟩
        simp [formatDefaultValue, hn, hp] at h
        rw [← h]
        simp
  refine ⟨key, ?_⟩
  obtain ⟨t, d, -, -, hl⟩ := key
  intro hf
  rw [hl] at hf
  have e1 : (fmtInt d ++ " * time.Nanosecond".toList).getLast? = some 'd' := by
    rw [List.getLast?_append]
    rfl
  have e2 : (durationFuncLiteral s).getLast? = some ')' := by
    unfold durationFuncLiteral
    rw [List.getLast?_append]
    rfl
  rw [hf, e2] at e1
  exact absurd e1 (by decide)

/-- C5 at the string default `"1d"`. -/
theorem formatDefaultValue_duration_form_witness :
    (∃ (t : Str) (d : Int), normalizeDuration "1d".toList = some t ∧
      parseDuration Runtime.basic t = some d ∧
      "86400000000000 * time.Nanosecond".toList = fmtInt d ++ " * time.Nanosecond".toList) ∧
    "86400000000000 * time.Nanosecond".toList ≠ durationFuncLiteral "1d".toList :=
  formatDefaultValue_duration_form Runtime.basic RangeOrder.stored [] "1d".toList
    "86400000000000 * time.Nanosecond".toList (by decide)

/-- C5 as stated fails: an integer default declared as a duration synthesises to
the bare integer `5`, and a list default to a list literal holding a run-time
parsing function literal; neither ends in `" * time.Nanosecond"`. -/
theorem formatDefaultValue_duration_counterexample :
    formatDefaultValue Runtime.basic RangeOrder.stored [] (Value.int 5) "duration".toList =
      some "5".toList ∧
    hasSuffix "5".toList " * time.Nanosecond".toList = false ∧
    formatDefaultValue Runtime.basic RangeOrder.stored [] (Value.list [Value.str "5s".toList])
      "duration".toList =
      some ("[]string\x7b".toList ++ durationFuncLiteral "5s".toList ++ "\x7d".toList) := by
  decide

/-! ## Map literals (C7, C8, C9) -/

theorem range_filterMap_getElem? {α : Type} (l : List α) :
    (List.range l.length).filterMap (fun i => l[i]?) = l := by
  induction l with
  | nil => rfl
  | cons a r ih =>
    rw [List.length_cons, List.range_succ_eq_map, List.filterMap_cons]
    simp only [List.getElem?_cons_zero, List.filterMap_map]
    congr 1
    rw [show ((fun i => (a :: r)[i]?) ∘ Nat.succ) = (fun i => r[i]?) from
      funext (fun i => by simp)]
    exact ih

theorem rangeOver_perm {α : Type} (ρ : RangeOrder) (p : List Nat) (site : Nat) (l : List α) :
    (rangeOver ρ p site l).Perm l := by
  have h := (ρ.perm p site l.length).filterMap (fun i => l[i]?)
  rw [range_filterMap_getElem?] at h
  exact h

theorem rangeOver_all {α : Type} (ρ : RangeOrder) (p : List Nat) (site : Nat) (l : List α)
    (f : α → Bool) : (rangeOver ρ p site l).all f = l.all f := by
  rw [Bool.eq_iff_iff, List.all_eq_true, List.all_eq_true]
  constructor
  · intro h x hx
    exact h x ((rangeOver_perm ρ p site l).mem_iff.2 hx)
  · intro h x hx
    exact h x ((rangeOver_perm ρ p site l).mem_iff.1 hx)

theorem rangeOver_head_mem {α : Type} (ρ : RangeOrder) (p : List Nat) (site : Nat) (l : List α)
    (hne : l ≠ []) : ∃ a rest, rangeOver ρ p site l = a :: rest ∧ a ∈ l := by
  have hp := rangeOver_perm ρ p site l
  cases h : rangeOver ρ p site l with
  | nil =>
    rw [h] at hp
    exact absurd hp.symm.eq_nil hne
  | cons a rest =>
    exact ⟨a, rest, rfl, hp.mem_iff.1 (by rw [h]; exact List.mem_cons_self a rest)⟩

/-- C7: a non-empty mapping with string keys and empty-mapping values is
synthesised as `map[string]struct{}{` + entries joined by `", "` + `}`, the
entries being one `<quoted key>: struct{}{}` per key, in some order, and nothing else. -/
theorem formatDefaultValue_set_like (R : Runtime) (ρ : RangeOrder) (p : List Nat)
    (keys : List Str) (t : Str) (hne : keys ≠ []) :
    ∃ entries : List Str,
      entries.Perm (keys.map (fun k => quote R k ++ ": struct\x7b\x7d\x7b\x7d".toList)) ∧
      formatDefaultValue R ρ p (Value.map (keys.map (fun k => (Value.str k, Value.map [])))) t =
        some ("map[string]struct\x7b\x7d\x7b".toList ++ joinComma entries ++ "\x7d".toList) := by
  set m : List (Value × Value) := keys.map (fun k => (Value.str k, Value.map [])) with hm
  refine ⟨(rangeOver ρ p 2 m).map
    (fun kv => sprintfQ R kv.1 ++ ": struct\x7b\x7d\x7b\x7d".toList), ?_, ?_⟩
  · have h := (rangeOver_perm ρ p 2 m).map
      (fun kv => sprintfQ R kv.1 ++ ": struct\x7b\x7d\x7b\x7d".toList)
    rw [hm, List.map_map] at h
    exact h
  · have he : m.isEmpty = false := by
      cases keys with
      | nil => exact absurd rfl hne
      | cons a r => rfl
    have hk : m.all (fun kv => kv.1.isStr) = true := by
      rw [List.all_eq_true]
      intro x hx
      obtain ⟨k, -, rfl⟩ := List.mem_map.1 hx
      rfl
    have hv : m.all (fun kv => kv.2.isEmptyMap) = true := by
      rw [List.all_eq_true]
      intro x hx
      obtain ⟨k, -, rfl⟩ := List.mem_map.1 hx
      rfl
    rw [formatDefaultValue]
    simp only [he, rangeOver_all, hk, hv, Bool.and_self, if_true, Bool.false_eq_true, if_false]

/-- C7 at `{"a": {}, "b": {}}`: the literal has exactly the entries for `"a"` and `"b"`. -/
theorem formatDefaultValue_set_like_witness :
    ∃ entries : List Str,
      entries.Perm [quote Runtime.basic "a".toList ++ ": struct\x7b\x7d\x7b\x7d".toList,
        quote Runtime.basic "b".toList ++ ": struct\x7b\x7d\x7b\x7d".toList] ∧
      formatDefaultValue Runtime.basic RangeOrder.reversed []
        (Value.map [(Value.str "a".toList, Value.map []), (Value.str "b".toList, Value.map [])])
        "map[string]struct\x7b\x7d".toList =
        some ("map[string]struct\x7b\x7d\x7b".toList ++ joinComma entries ++ "\x7d".toList) :=
  formatDefaultValue_set_like Runtime.basic RangeOrder.reversed [] ["a".toList, "b".toList]
    "map[string]struct\x7b\x7d".toList (by decide)

theorem formatEntries_str_int (R : Runtime) (ρ : RangeOrder) (p : List Nat)
    (kvs : List (Str × Int)) (hk : ∀ kv ∈ kvs, parseDuration R kv.1 = none) (i : Nat) :
    formatEntries R ρ p i (kvs.map (fun kv => (Value.str kv.1, Value.int kv.2))) =
      some (kvs.map (fun kv => quote R kv.1 ++ ": ".toList ++ fmtInt kv.2)) := by
  induction kvs generalizing i with
  | nil => simp [formatEntries]
  | cons a r ih =>
    have ha : parseDuration R a.1 = none := hk a (List.mem_cons_self a r)
    have hr := ih (fun kv h => hk kv (List.mem_cons_of_mem a h)) (i + 1)
    have hs : ¬ ("string".toList = "duration".toList) := by decide
    rw [List.map_cons, formatEntries]
    simp only [detectType, formatDefaultValue, hs, if_false, looksLikeDuration, ha,
      Option.isSome_none, Bool.false_eq_true, hr, List.map_cons]

/-- A non-empty mapping whose keys are strings that do not parse as native
durations and whose values are integers is synthesised as `map[string]int{` +
entries joined by `", "` + `}`, the entries being one
`<quoted key>: <decimal value>` per entry of the mapping, in some order. -/
theorem formatDefaultValue_str_int_map (R : Runtime) (ρ : RangeOrder) (p : List Nat)
    (kvs : List (Str × Int)) (t : Str) (hne : kvs ≠ [])
    (hk : ∀ kv ∈ kvs, parseDuration R kv.1 = none) :
    ∃ entries : List Str,
      entries.Perm (kvs.map (fun kv => quote R kv.1 ++ ": ".toList ++ fmtInt kv.2)) ∧
      formatDefaultValue R ρ p
          (Value.map (kvs.map (fun kv => (Value.str kv.1, Value.int kv.2)))) t =
        some ("map[string]int\x7b".toList ++ joinComma entries ++ "\x7d".toList) := by
  set m : List (Value × Value) := kvs.map (fun kv => (Value.str kv.1, Value.int kv.2)) with hm
  set rendered : List Str := kvs.map (fun kv => quote R kv.1 ++ ": ".toList ++ fmtInt kv.2)
    with hr
  have hlen : m.length = rendered.length := by simp [hm, hr]
  have hmne : m ≠ [] := by
    cases kvs with
    | nil => exact absurd rfl hne
    | cons a r => simp [hm]
  refine ⟨rangeOver ρ p 5 rendered, rangeOver_perm ρ p 5 rendered, ?_⟩
  have he : m.isEmpty = false := by
    cases hmm : m with
    | nil => exact absurd hmm hmne
    | cons a r => rfl
  have hv : m.all (fun kv => kv.2.isEmptyMap) = false := by
    cases kvs with
    | nil => exact absurd rfl hne
    | cons a r => simp [hm, Value.isEmptyMap]
  have hkey : detectType (getFirstMapKey ρ p m) = "string".toList := by
    obtain ⟨a, rest, h1, h2⟩ := rangeOver_head_mem ρ p 3 m hmne
    obtain ⟨kv, -, rfl⟩ := List.mem_map.1 h2
    simp [getFirstMapKey, h1, detectType]
  have hval : detectType (getFirstMapValue ρ p m) = "int".toList := by
    obtain ⟨a, rest, h1, h2⟩ := rangeOver_head_mem ρ p 4 m hmne
    obtain ⟨kv, -, rfl⟩ := List.mem_map.1 h2
    simp [getFirstMapValue, h1, detectType]
  rw [formatDefaultValue]
  simp only [he, rangeOver_all, hv, Bool.and_false, Bool.false_eq_true, if_false, hkey, hval,
    hm, formatEntries_str_int R ρ p kvs hk 0]
  simp [rangeOver, hr]

/-- The mapping `{"warning": 70, "critical": 90}` has exactly the two entries
`"warning": 70` and `"critical": 90`. -/
theorem formatDefaultValue_str_int_map_thresholds :
    ∃ entries : List Str,
      entries.Perm ["\x22warning\x22: 70".toList, "\x22critical\x22: 90".toList] ∧
      formatDefaultValue Runtime.basic RangeOrder.reversed []
        (Value.map [(Value.str "warning".toList, Value.int 70),
          (Value.str "critical".toList, Value.int 90)]) "map[string]int".toList =
        some ("map[string]int\x7b".toList ++ joinComma entries ++ "\x7d".toList) :=
  formatDefaultValue_str_int_map Runtime.basic RangeOrder.reversed []
    [("warning".toList, 70), ("critical".toList, 90)] "map[string]int".toList (by decide)
    (by decide)

/-- C8: at the mapping `{"5s": 70}`, string key and integer value, the literal
is `map[string]int{` + the run-time parsing function literal + `: 70}`: the key
is not the quoted key `"5s"` of the claim but an expression that denotes a
`time.Duration`, although `detectType` names the key type `string`; the
set-like case of the same function quotes the same key. -/
theorem formatDefaultValue_duration_key :
    formatDefaultValue Runtime.basic RangeOrder.stored []
        (Value.map [(Value.str "5s".toList, Value.int 70)]) "map[string]int".toList =
      some ("map[string]int\x7b".toList ++
        "func() time.Duration \x7b\n\t\t\t\td, _ := time.ParseDuration(\x225s\x22)".toList ++
        "\n\t\t\t\treturn d\n\t\t\t\x7d()".toList ++
        ": 70\x7d".toList) ∧
    formatDefaultValue Runtime.basic RangeOrder.stored []
        (Value.map [(Value.str "5s".toList, Value.int 70)]) "map[string]int".toList ≠
      some "map[string]int\x7b\x225s\x22: 70\x7d".toList ∧
    detectType (Value.str "5s".toList) = "string".toList ∧
    evalLiteral Runtime.basic
        ("func() time.Duration \x7b\n\t\t\t\td, _ := time.ParseDuration(\x225s\x22)".toList ++
        "\n\t\t\t\treturn d\n\t\t\t\x7d()".toList) =
      some (GoValue.duration 5000000000) ∧
    formatDefaultValue Runtime.basic RangeOrder.stored []
        (Value.map [(Value.str "5s".toList, Value.map [])]) "map[string]struct\x7b\x7d".toList =
      some "map[string]struct\x7b\x7d\x7b\x225s\x22: struct\x7b\x7d\x7b\x7d\x7d".toList := by
  decide

/-- C9: an empty mapping is synthesised as `map[any]any{}` for every declared
type, not as `map[string]any{}`, although `detectType` names the type of every
mapping `map[string]any`; a list holding an empty mapping therefore gets the
element type `map[string]any` around a `map[any]any{}` element. -/
theorem formatDefaultValue_empty_map (R : Runtime) (ρ : RangeOrder) (p : List Nat) (t : Str) :
    formatDefaultValue R ρ p (Value.map []) t = some "map[any]any\x7b\x7d".toList ∧
    formatDefaultValue R ρ p (Value.map []) t ≠ some "map[string]any\x7b\x7d".toList ∧
    detectType (Value.map []) = "map[string]any".toList ∧
    formatDefaultValue R ρ p (Value.list [Value.map []]) t =
      some "[]map[string]any\x7bmap[any]any\x7b\x7d\x7d".toList := by
  refine ⟨?_, ?_, rfl, ?_⟩
  · simp [formatDefaultValue]
  · simp [formatDefaultValue]
  · simp [formatDefaultValue, formatElems, detectType, joinComma, List.intercalate]

/-! ## Iteration order (C10) -/

mutual
theorem formatDefaultValue_congr (R : Runtime) (ρ1 ρ2 : RangeOrder)
    (h : ∀ q s n, q ≠ [] → ρ1.visit q s n = ρ2.visit q s n) :
    ∀ (v : Value) (p : List Nat) (t : Str), p ≠ [] →
      formatDefaultValue R ρ1 p v t = formatDefaultValue R ρ2 p v t
  | .str s, p, t, _ => by simp only [formatDefaultValue]
  | .int n, p, t, _ => by simp only [formatDefaultValue]
  | .uint64 n, p, t, _ => by simp only [formatDefaultValue]
  | .float64 b, p, t, _ => by simp only [formatDefaultValue]
  | .bool b, p, t, _ => by simp only [formatDefaultValue]
  | .null, p, t, _ => by simp only [formatDefaultValue]
  | .list [], p, t, _ => by simp only [formatDefaultValue]
  | .list (x :: xs), p, t, hp => by
    rw [formatDefaultValue, formatDefaultValue, formatElems_congr R ρ1 ρ2 h (x :: xs) p 0 hp]
  | .map m, p, t, hp => by
    rw [formatDefaultValue, formatDefaultValue, formatEntries_congr R ρ1 ρ2 h m p 0 hp]
    simp only [rangeOver, getFirstMapKey, getFirstMapValue, h p _ _ hp]
theorem formatElems_congr (R : Runtime) (ρ1 ρ2 : RangeOrder)
    (h : ∀ q s n, q ≠ [] → ρ1.visit q s n = ρ2.visit q s n) :
    ∀ (xs : List Value) (p : List Nat) (i : Nat), p ≠ [] →
      formatElems R ρ1 p i xs = formatElems R ρ2 p i xs
  | [], p, i, _ => by simp only [formatElems]
  | e :: es, p, i, hp => by
    rw [formatElems, formatElems,
      formatDefaultValue_congr R ρ1 ρ2 h e (i :: p) _ (List.cons_ne_nil _ _),
      formatElems_congr R ρ1 ρ2 h es p (i + 1) hp]
theorem formatEntries_congr (R : Runtime) (ρ1 ρ2 : RangeOrder)
    (h : ∀ q s n, q ≠ [] → ρ1.visit q s n = ρ2.visit q s n) :
    ∀ (m : List (Value × Value)) (p : List Nat) (i : Nat), p ≠ [] →
      formatEntries R ρ1 p i m = formatEntries R ρ2 p i m
  | [], p, i, _ => by simp only [formatEntries]
  | (k, v) :: rest, p, i, hp => by
    rw [formatEntries, formatEntries,
      formatDefaultValue_congr R ρ1 ρ2 h k ((2 * i) :: p) _ (List.cons_ne_nil _ _),
      formatDefaultValue_congr R ρ1 ρ2 h v ((2 * i + 1) :: p) _ (List.cons_ne_nil _ _),
      formatEntries_congr R ρ1 ρ2 h rest p (i + 1) hp]
end

theorem allSome_eq_none_iff {α : Type} (l : List (Option α)) :
    allSome l = none ↔ none ∈ l := by
  induction l with
  | nil => simp [allSome]
  | cons a r ih =>
    cases a with
    | none => simp [allSome]
    | some x =>
      cases hr : allSome r with
      | none => simp [allSome, hr, ih.1 hr]
      | some ys =>
        have : ¬ none ∈ r := fun hm => by
          rw [ih.2 hm] at hr
          exact Option.noConfusion hr
        simp [allSome, hr, this]

theorem allSome_eq_some {α : Type} (l : List (Option α)) (r : List α)
    (h : allSome l = some r) : l = r.map some := by
  induction l generalizing r with
  | nil =>
    simp only [allSome, Option.some.injEq] at h
    rw [← h]
    rfl
  | cons a t ih =>
    cases a with
    | none => simp [allSome] at h
    | some x =>
      cases ht : allSome t with
      | none => simp [allSome, ht] at h
      | some ys =>
        simp only [allSome, ht, Option.some.injEq] at h
        rw [← h, List.map_cons, ← ih ys ht]

theorem allSome_perm {α : Type} (l1 l2 : List (Option α)) (hp : l1.Perm l2) :
    (allSome l1 = none ↔ allSome l2 = none) ∧
    (∀ a b, allSome l1 = some a → allSome l2 = some b → a.Perm b) := by
  refine ⟨?_, ?_⟩
  · rw [allSome_eq_none_iff, allSome_eq_none_iff]
    exact hp.mem_iff
  · intro a b ha hb
    have h1 := allSome_eq_some l1 a ha
    have h2 := allSome_eq_some l2 b hb
    rw [h1, h2] at hp
    have := hp.filterMap id
    simpa [List.filterMap_map] using this

theorem visitSchema_perm (ρ1 ρ2 : RangeOrder) (config : List (Str × FieldSpec)) :
    (visitSchema ρ1 config).Perm (visitSchema ρ2 config) := by
  unfold visitSchema
  exact ((ρ1.perm [] 0 config.length).trans (ρ2.perm [] 0 config.length).symm).filterMap _

theorem buildField_congr (R : Runtime) (ρ1 ρ2 : RangeOrder)
    (h : ∀ q s n, q ≠ [] → ρ1.visit q s n = ρ2.visit q s n) (i : Nat) (name : Str)
    (spec : FieldSpec) : buildField R ρ1 i name spec = buildField R ρ2 i name spec := by
  unfold buildField
  rw [formatDefaultValue_congr R ρ1 ρ2 h spec.Default [i] spec.Typ (List.cons_ne_nil _ _)]

/-- C10 (amended): when two runs visit every nested mapping in the same order,
whatever the orders in which they visit the schema mapping, either both abort
or both return; the two Field sequences then hold the same Fields, possibly in
a different order (one is a permutation of the other), and the `usesTime`
flags are equal. -/
theorem parseFields_order (R : Runtime) (ρ1 ρ2 : RangeOrder) (config : List (Str × FieldSpec))
    (h : ∀ q s n, q ≠ [] → ρ1.visit q s n = ρ2.visit q s n) :
    (parseFields R ρ1 config = none ↔ parseFields R ρ2 config = none) ∧
    (∀ r1 r2, parseFields R ρ1 config = some r1 → parseFields R ρ2 config = some r2 →
      r1.1.Perm r2.1 ∧ r1.2 = r2.2) := by
  have hf : (fun e : Nat × Str × FieldSpec => buildField R ρ1 e.1 e.2.1 e.2.2) =
      (fun e => buildField R ρ2 e.1 e.2.1 e.2.2) :=
    funext (fun e => buildField_congr R ρ1 ρ2 h e.1 e.2.1 e.2.2)
  have hv := visitSchema_perm ρ1 ρ2 config
  have hp := allSome_perm _ _ (hv.map (fun e => buildField R ρ1 e.1 e.2.1 e.2.2))
  have hany : (visitSchema ρ1 config).any (fun e => e.2.2.Typ == "duration".toList) =
      (visitSchema ρ2 config).any (fun e => e.2.2.Typ == "duration".toList) := by
    rw [Bool.eq_iff_iff, List.any_eq_true, List.any_eq_true]
    constructor
    · rintro ⟨x, hx, hx2⟩
      exact ⟨x, hv.mem_iff.1 hx, hx2⟩
    · rintro ⟨x, hx, hx2⟩
      exact ⟨x, hv.mem_iff.2 hx, hx2⟩
  unfold parseFields
  rw [← hf, ← hany]
  cases h1 : allSome ((visitSchema ρ1 config).map (fun e => buildField R ρ1 e.1 e.2.1 e.2.2)) with
  | none =>
    have h2 := hp.1.1 h1
    simp [h2]
  | some a =>
    cases h2 : allSome ((visitSchema ρ2 config).map
        (fun e => buildField R ρ1 e.1 e.2.1 e.2.2)) with
    | none => exact absurd (hp.1.2 h2) (by rw [h1]; exact Option.noConfusion)
    | some b =>
      refine ⟨by simp, ?_⟩
      intro r1 r2 e1 e2
      simp only [Option.some.injEq] at e1 e2
      rw [← e1, ← e2]
      exact ⟨hp.2 a b h1 h2, rfl⟩

/-- C10 (amended) on the two-entry example schema, the schema loop visited in
stored and in reverse order: the same two Fields, in opposite orders. -/
theorem parseFields_order_witness :
    parseFields Runtime.basic RangeOrder.stored schemaTwo =
      some ([fieldAppName, fieldTimeout], true) ∧
    parseFields Runtime.basic RangeOrder.reversedTop schemaTwo =
      some ([fieldTimeout, fieldAppName], true) ∧
    [fieldAppName, fieldTimeout].Perm [fieldTimeout, fieldAppName] ∧ true = true :=
  ⟨by decide, by decide,
    (parseFields_order Runtime.basic RangeOrder.stored RangeOrder.reversedTop schemaTwo
      (fun q s n hq => by simp [RangeOrder.stored, RangeOrder.reversedTop, hq])).2
      ([fieldAppName, fieldTimeout], true) ([fieldTimeout, fieldAppName], true)
      (by decide) (by decide)⟩

/-- C10 as stated fails: on the same schema two iteration orders give different
Field sequences, and on the same mapping default two iteration orders give
different literals. -/
theorem parseFields_order_counterexample :
    parseFields Runtime.basic RangeOrder.stored schemaTwo =
      some ([fieldAppName, fieldTimeout], true) ∧
    parseFields Runtime.basic RangeOrder.reversed schemaTwo =
      some ([fieldTimeout, fieldAppName], true) ∧
    parseFields Runtime.basic RangeOrder.stored schemaTwo ≠
      parseFields Runtime.basic RangeOrder.reversed schemaTwo ∧
    formatDefaultValue Runtime.basic RangeOrder.stored [0] thresholds "map[string]int".toList =
      some ("map[string]int\x7b".toList ++ quote Runtime.basic "warning".toList ++
        ": 70, ".toList ++ quote Runtime.basic "critical".toList ++ ": 90\x7d".toList) ∧
    formatDefaultValue Runtime.basic RangeOrder.reversed [0] thresholds "map[string]int".toList =
      some ("map[string]int\x7b".toList ++ quote Runtime.basic "critical".toList ++
        ": 90, ".toList ++ quote Runtime.basic "warning".toList ++ ": 70\x7d".toList) := by
  decide

/-! ## Decimal rendering read back -/

theorem toDigitsCore_append (fuel : Nat) : ∀ (n : Nat) (ds : List Char),
    Nat.toDigitsCore 10 fuel n ds = Nat.toDigitsCore 10 fuel n [] ++ ds := by
  induction fuel with
  | zero => intro n ds; simp [Nat.toDigitsCore]
  | succ f ih =>
    intro n ds
    simp only [Nat.toDigitsCore]
    split
    · simp
    · rw [ih (n / 10) (Nat.digitChar (n % 10) :: ds), ih (n / 10) [Nat.digitChar (n % 10)]]
      simp

theorem toDigitsCore_fuel (fuel : Nat) : ∀ (n : Nat), n < fuel → ∀ ds : List Char,
    Nat.toDigitsCore 10 fuel n ds = Nat.toDigitsCore 10 (n + 1) n ds := by
  induction fuel using Nat.strong_induction_on with
  | _ fuel ih =>
    intro n hn ds
    cases fuel with
    | zero => omega
    | succ f =>
      simp only [Nat.toDigitsCore]
      split
      · rfl
      · rename_i hne
        have h1 : n / 10 < f := by omega
        have h2 : n / 10 < n := by omega
        rw [ih f (by omega) (n / 10) h1, ih n (by omega) (n / 10) h2]

theorem toDigits_small (n : Nat) (h : n < 10) : Nat.toDigits 10 n = [Nat.digitChar n] := by
  have h0 : n / 10 = 0 := by omega
  have h1 : n % 10 = n := by omega
  simp [Nat.toDigits, Nat.toDigitsCore, h0, h1]

theorem toDigits_step (n : Nat) (h : 10 ≤ n) :
    Nat.toDigits 10 n = Nat.toDigits 10 (n / 10) ++ [Nat.digitChar (n % 10)] := by
  have h0 : n / 10 ≠ 0 := by omega
  have h2 : n / 10 < n := by omega
  have e : Nat.toDigits 10 n = Nat.toDigitsCore 10 n (n / 10) [Nat.digitChar (n % 10)] := by
    show Nat.toDigitsCore 10 (n + 1) n [] = _
    simp only [Nat.toDigitsCore, h0, if_false]
  rw [e, toDigitsCore_append, toDigitsCore_fuel n (n / 10) h2]
  rfl

theorem digitChar_isDigit (d : Nat) (h : d < 10) :
    isDigit (Nat.digitChar d) = true ∧ (Nat.digitChar d).toNat - 48 = d := by
  interval_cases d <;> decide

theorem digitsValue_concat (xs : Str) (c : Char) (acc : Nat) :
    digitsValue (xs ++ [c]) acc =
      (digitsValue xs acc).bind
        (fun v => if isDigit c then some (v * 10 + (c.toNat - 48)) else none) := by
  induction xs generalizing acc with
  | nil => simp [digitsValue]
  | cons a r ih =>
    simp only [List.cons_append, digitsValue]
    split
    · exact ih _
    · rfl

theorem digitsValue_toDigits (n : Nat) : digitsValue (Nat.toDigits 10 n) 0 = some n := by
  induction n using Nat.strong_induction_on with
  | _ n ih =>
    by_cases h : n < 10
    · rw [toDigits_small n h]
      simp [digitsValue, digitChar_isDigit n h]
    · have hd := digitChar_isDigit (n % 10) (by omega)
      rw [toDigits_step n (by omega), digitsValue_concat, ih (n / 10) (by omega)]
      simp only [Option.some_bind, hd.1, if_true, hd.2, Option.some.injEq]
      omega

theorem toDigits_head (n : Nat) :
    ∃ c rest, Nat.toDigits 10 n = c :: rest ∧ isDigit c = true ∧ (n ≠ 0 → c ≠ '0') := by
  induction n using Nat.strong_induction_on with
  | _ n ih =>
    by_cases h : n < 10
    · refine ⟨Nat.digitChar n, [], toDigits_small n h, (digitChar_isDigit n h).1, ?_⟩
      intro hn
      interval_cases n <;> first | exact absurd rfl hn | decide
    · obtain ⟨c, rest, h1, h2, h3⟩ := ih (n / 10) (by omega)
      refine ⟨c, rest ++ [Nat.digitChar (n % 10)], ?_, h2, fun _ => h3 (by omega)⟩
      rw [toDigits_step n (by omega), h1]
      rfl

theorem decimalLit_toDigits (n : Nat) : decimalLit (Nat.toDigits 10 n) = some n := by
  by_cases h0 : n = 0
  · subst h0
    rfl
  · obtain ⟨c, rest, h1, -, h3⟩ := toDigits_head n
    have h4 := digitsValue_toDigits n
    have h5 : ¬ (c :: rest = ['0']) := fun hc => h3 h0 (List.cons.inj hc).1
    rw [h1] at h4
    unfold decimalLit
    rw [h1]
    simp only [h5, if_false, beq_iff_eq, h3 h0, h4]

theorem evalLiteral_fmtInt (R : Runtime) (n : Int) :
    evalLiteral R (fmtInt n) = some (GoValue.int n) := by
  cases n with
  | ofNat k =>
    obtain ⟨c, rest, h1, h2, -⟩ := toDigits_head k
    have h3 := decimalLit_toDigits k
    have hs := isDigit_ne_sign c h2
    have hq : (c == dquote) = false := by
      rw [beq_eq_false_iff_ne]
      intro hc
      subst hc
      revert h2
      decide
    have ht : ¬ (c :: rest = "true".toList) := by
      intro hc
      have := (List.cons.inj hc).1
      subst this
      revert h2
      decide
    have hf : ¬ (c :: rest = "false".toList) := by
      intro hc
      have := (List.cons.inj hc).1
      subst this
      revert h2
      decide
    simp only [fmtInt]
    rw [h1] at h3 ⊢
    unfold evalLiteral
    simp only [ht, hf, if_false, hq, hs.1, Bool.false_eq_true, h2, if_true, h3, Option.map_some']
    rfl
  | negSucc k =>
    have h3 := decimalLit_toDigits (k + 1)
    have ht : ¬ ('-' :: Nat.toDigits 10 (k + 1) = "true".toList) := by
      intro hc
      exact absurd (List.cons.inj hc).1 (by decide)
    have hf : ¬ ('-' :: Nat.toDigits 10 (k + 1) = "false".toList) := by
      intro hc
      exact absurd (List.cons.inj hc).1 (by decide)
    have hq : ('-' == dquote) = false := by decide
    simp only [fmtInt]
    unfold evalLiteral
    simp only [ht, hf, if_false, hq, Bool.false_eq_true, beq_self_eq_true, if_true, h3,
      Option.map_some']
    rfl

/-! ## Quoted strings read back -/

theorem hexVal_hexDigit (d : Nat) (h : d < 16) : hexVal (hexDigit d) = some d := by
  interval_cases d <;> decide

theorem runeOf_toNat (c : Char) : runeOf c.toNat = some c := by
  have h : c.toNat.isValidChar := c.valid
  simp [runeOf, h, Char.ofNat_toNat]

theorem byteRune_toNat (c : Char) (h : c.toNat < 128) : byteRune c.toNat = some c := by
  simp [byteRune, h, Char.ofNat_toNat]

theorem unquoteFrom_plain (c : Char) (rest : Str) (h1 : c ≠ dquote) (h2 : c.toNat ≠ 10)
    (h3 : c ≠ backslash) :
    unquoteFrom Esc.plain (c :: rest) = consRune (some c) (unquoteFrom Esc.plain rest) := by
  rw [unquoteFrom]
  simp only [beq_iff_eq, h1, h2, h3, if_false]

theorem unquoteFrom_backslash (rest : Str) :
    unquoteFrom Esc.plain (backslash :: rest) = unquoteFrom Esc.slash rest := by
  rw [unquoteFrom]
  have h1 : (backslash == dquote) = false := by decide
  have h2 : (backslash.toNat == 10) = false := by decide
  simp only [h1, h2, Bool.false_eq_true, if_false, beq_self_eq_true, if_true]

theorem unquoteFrom_hex_last (acc d : Nat) (byte : Bool) (rest : Str) (hd : d < 16) :
    unquoteFrom (Esc.hex 1 acc byte) (hexDigit d :: rest) =
      consRune (if byte then byteRune (acc * 16 + d) else runeOf (acc * 16 + d))
        (unquoteFrom Esc.plain rest) := by
  rw [unquoteFrom]
  simp only [hexVal_hexDigit d hd, le_refl, if_true]

theorem unquoteFrom_hex_more (left acc d : Nat) (byte : Bool) (rest : Str) (hd : d < 16)
    (hl : 1 < left) :
    unquoteFrom (Esc.hex left acc byte) (hexDigit d :: rest) =
      unquoteFrom (Esc.hex (left - 1) (acc * 16 + d) byte) rest := by
  rw [unquoteFrom]
  have : ¬ left ≤ 1 := by omega
  simp only [hexVal_hexDigit d hd, this, if_false]

theorem isPrint_plain (R : Runtime) (c : Char) (h : isPrint R c = true) : c.toNat ≠ 10 := by
  intro hc
  simp [isPrint, hc] at h

theorem char_eq_of_toNat (c : Char) (n : Nat) (h : c.toNat = n) : c = Char.ofNat n := by
  rw [← h, Char.ofNat_toNat]

theorem unquoteFrom_quoteRune (R : Runtime) (c : Char) (rest : Str) :
    unquoteFrom Esc.plain (quoteRune R c ++ rest) =
      consRune (some c) (unquoteFrom Esc.plain rest) := by
  unfold quoteRune
  by_cases h1 : (c == dquote || c == backslash) = true
  · simp only [h1, if_true]
    simp only [Bool.or_eq_true, beq_iff_eq] at h1
    rcases h1 with h | h
    · subst h
      rw [List.cons_append, List.cons_append, unquoteFrom_backslash, unquoteFrom]
      rfl
    · subst h
      rw [List.cons_append, List.cons_append, unquoteFrom_backslash, unquoteFrom]
      rfl
  · simp only [h1, Bool.false_eq_true, if_false]
    simp only [Bool.or_eq_true, beq_iff_eq, not_or] at h1
    by_cases h2 : isPrint R c = true
    · simp only [h2, if_true]
      exact unquoteFrom_plain c rest h1.1 (isPrint_plain R c h2) h1.2
    · simp only [h2, Bool.false_eq_true, if_false]
      have hv : c.toNat < 1114112 := by
        have := c.valid
        simp only [UInt32.isValidChar, Nat.isValidChar] at this
        change c.toNat < 55296 ∨ 57343 < c.toNat ∧ c.toNat < 1114112 at this
        omega
      by_cases e7 : c.toNat = 7
      · rw [char_eq_of_toNat c 7 e7]
        rfl
      by_cases e8 : c.toNat = 8
      · rw [char_eq_of_toNat c 8 e8]
        rfl
      by_cases e12 : c.toNat = 12
      · rw [char_eq_of_toNat c 12 e12]
        rfl
      by_cases e10 : c.toNat = 10
      · rw [char_eq_of_toNat c 10 e10]
        rfl
      by_cases e13 : c.toNat = 13
      · rw [char_eq_of_toNat c 13 e13]
        rfl
      by_cases e9 : c.toNat = 9
      · rw [char_eq_of_toNat c 9 e9]
        rfl
      by_cases e11 : c.toNat = 11
      · rw [char_eq_of_toNat c 11 e11]
        rfl
      simp only [beq_iff_eq, e7, e8, e12, e10, e13, e9, e11, if_false]
      have hx : unquoteFrom Esc.slash ('x' :: (hexDigit (c.toNat / 16 % 16) ::
          hexDigit (c.toNat % 16) :: rest)) =
          unquoteFrom (Esc.hex 2 0 true) (hexDigit (c.toNat / 16 % 16) ::
            hexDigit (c.toNat % 16) :: rest) := by
        rw [unquoteFrom]; rfl
      by_cases hs : (decide (c.toNat < 32) || c.toNat == 127) = true
      · simp only [hs, if_true, List.cons_append, List.nil_append]
        simp only [Bool.or_eq_true, decide_eq_true_eq, beq_iff_eq] at hs
        rw [unquoteFrom_backslash, hx,
          unquoteFrom_hex_more 2 0 _ true _ (by omega) (by omega),
          unquoteFrom_hex_last _ _ true _ (by omega)]
        have : (0 * 16 + c.toNat / 16 % 16) * 16 + c.toNat % 16 = c.toNat := by omega
        simp only [this, if_true, byteRune_toNat c (by omega)]
      · simp only [hs, Bool.false_eq_true, if_false]
        by_cases hu : c.toNat < 65536
        · simp only [hu, if_true, List.cons_append, List.nil_append]
          rw [unquoteFrom_backslash]
          have hu4 : ∀ r, unquoteFrom Esc.slash ('u' :: r) = unquoteFrom (Esc.hex 4 0 false) r := by
            intro r; rw [unquoteFrom]; rfl
          rw [hu4, unquoteFrom_hex_more 4 0 _ false _ (by omega) (by omega),
            unquoteFrom_hex_more 3 _ _ false _ (by omega) (by omega),
            unquoteFrom_hex_more 2 _ _ false _ (by omega) (by omega),
            unquoteFrom_hex_last _ _ false _ (by omega)]
          have : (((0 * 16 + c.toNat / 4096 % 16) * 16 + c.toNat / 256 % 16) * 16 +
              c.toNat / 16 % 16) * 16 + c.toNat % 16 = c.toNat := by omega
          simp only [this, Bool.false_eq_true, if_false, runeOf_toNat]
        · simp only [hu, if_false, List.cons_append, List.nil_append]
          rw [unquoteFrom_backslash]
          have hU8 : ∀ r, unquoteFrom Esc.slash ('U' :: r) = unquoteFrom (Esc.hex 8 0 false) r := by
            intro r; rw [unquoteFrom]; rfl
          rw [hU8, unquoteFrom_hex_more 8 0 _ false _ (by omega) (by omega),
            unquoteFrom_hex_more 7 _ _ false _ (by omega) (by omega),
            unquoteFrom_hex_more 6 _ _ false _ (by omega) (by omega),
            unquoteFrom_hex_more 5 _ _ false _ (by omega) (by omega),
            unquoteFrom_hex_more 4 _ _ false _ (by omega) (by omega),
            unquoteFrom_hex_more 3 _ _ false _ (by omega) (by omega),
            unquoteFrom_hex_more 2 _ _ false _ (by omega) (by omega),
            unquoteFrom_hex_last _ _ false _ (by omega)]
          have : (((((((0 * 16 + c.toNat / 268435456 % 16) * 16 + c.toNat / 16777216 % 16) * 16 +
              c.toNat / 1048576 % 16) * 16 + c.toNat / 65536 % 16) * 16 +
              c.toNat / 4096 % 16) * 16 + c.toNat / 256 % 16) * 16 +
              c.toNat / 16 % 16) * 16 + c.toNat % 16 = c.toNat := by omega
          simp only [this, Bool.false_eq_true, if_false, runeOf_toNat]

theorem unquoteBody_quoteBody (R : Runtime) (s : Str) :
    unquoteBody (quoteBody R s ++ [dquote]) = some s := by
  unfold unquoteBody
  induction s with
  | nil => rfl
  | cons c r ih =>
    rw [quoteBody, List.append_assoc, unquoteFrom_quoteRune, ih]
    rfl

theorem evalLiteral_quote (R : Runtime) (s : Str) :
    evalLiteral R (quote R s) = some (GoValue.str s) := by
  have ht : ¬ (quote R s = "true".toList) := by
    intro h
    exact absurd (List.cons.inj h).1 (by decide)
  have hf : ¬ (quote R s = "false".toList) := by
    intro h
    exact absurd (List.cons.inj h).1 (by decide)
  unfold evalLiteral
  simp only [ht, hf, if_false]
  simp only [quote, beq_self_eq_true, if_true, unquoteBody_quoteBody, Option.map_some']

/-! ## Round trip of scalar defaults (C6) -/

/-- C6 (amended): for a declared type other than `duration`, the literal
synthesised for a string that does not parse as a native duration, for an
integer and for a boolean, read back as a Go expression, denotes the original
value. -/
theorem scalar_round_trip (R : Runtime) (ρ : RangeOrder) (p : List Nat) (t : Str)
    (ht : t ≠ "duration".toList) :
    (∀ s : Str, parseDuration R s = none →
      ∃ lit, formatDefaultValue R ρ p (Value.str s) t = some lit ∧
        evalLiteral R lit = some (GoValue.str s)) ∧
    (∀ n : Int, ∃ lit, formatDefaultValue R ρ p (Value.int n) t = some lit ∧
      evalLiteral R lit = some (GoValue.int n)) ∧
    (∀ b : Bool, ∃ lit, formatDefaultValue R ρ p (Value.bool b) t = some lit ∧
      evalLiteral R lit = some (GoValue.bool b)) := by
  refine ⟨?_, ?_, ?_⟩
  · intro s hs
    refine ⟨quote R s, ?_, evalLiteral_quote R s⟩
    rw [formatDefaultValue]
    simp only [ht, if_false, looksLikeDuration, hs, Option.isSome_none, Bool.false_eq_true]
  · intro n
    exact ⟨fmtInt n, by simp [formatDefaultValue], evalLiteral_fmtInt R n⟩
  · intro b
    cases b
    · exact ⟨"false".toList, by simp [formatDefaultValue], rfl⟩
    · exact ⟨"true".toList, by simp [formatDefaultValue], rfl⟩

/-- C6 at the defaults `"myapp"`, `8080` and `true` of the example schema. -/
theorem scalar_round_trip_witness :
    (∃ lit, formatDefaultValue Runtime.basic RangeOrder.stored [] (Value.str "myapp".toList)
        "string".toList = some lit ∧
      evalLiteral Runtime.basic lit = some (GoValue.str "myapp".toList)) ∧
    (∃ lit, formatDefaultValue Runtime.basic RangeOrder.stored [] (Value.int 8080)
        "string".toList = some lit ∧
      evalLiteral Runtime.basic lit = some (GoValue.int 8080)) ∧
    (∃ lit, formatDefaultValue Runtime.basic RangeOrder.stored [] (Value.bool true)
        "string".toList = some lit ∧
      evalLiteral Runtime.basic lit = some (GoValue.bool true)) :=
  have h := scalar_round_trip Runtime.basic RangeOrder.stored [] "string".toList (by decide)
  ⟨h.1 "myapp".toList (by decide), h.2.1 8080, h.2.2 true⟩

/-- C6 as stated fails: the string default `"5s"` with declared type `string`
is synthesised as the run-time parsing function literal, which denotes a
`time.Duration` of 5000000000 ns and not the string `"5s"`. -/
theorem scalar_round_trip_counterexample :
    formatDefaultValue Runtime.basic RangeOrder.stored [] (Value.str "5s".toList)
      "string".toList = some (durationFuncLiteral "5s".toList) ∧
    evalLiteral Runtime.basic (durationFuncLiteral "5s".toList) =
      some (GoValue.duration 5000000000) ∧
    evalLiteral Runtime.basic (durationFuncLiteral "5s".toList) ≠
      some (GoValue.str "5s".toList) := by
  decide

/-! ## The rounds of `parseDurationLoop` -/

theorem leadingInt_length : ∀ (s : Str) (x v : Nat) (r : Str),
    leadingInt s x = some (v, r) → r.length ≤ s.length := by
  intro s
  induction s with
  | nil =>
    intro x v r h
    simp only [leadingInt, Option.some.injEq, Prod.mk.injEq] at h
    rw [← h.2]
  | cons c cs ih =>
    intro x v r h
    rw [leadingInt] at h
    split at h
    · simp only [Option.some.injEq, Prod.mk.injEq] at h
      rw [← h.2]
    · split at h
      · exact Option.noConfusion h
      · simp only at h
        split at h
        · exact Option.noConfusion h
        · have := ih _ v r h
          simp only [List.length_cons]
          omega

theorem leadingFraction_length : ∀ (s : Str) (x k : Nat) (ov : Bool),
    (leadingFraction s x k ov).2.2.length ≤ s.length := by
  intro s
  induction s with
  | nil => intro x k ov; simp [leadingFraction]
  | cons c cs ih =>
    intro x k ov
    rw [leadingFraction]
    split
    · exact Nat.le_refl _
    · split
      · exact Nat.le_succ_of_le (ih _ _ _)
      · split
        · exact Nat.le_succ_of_le (ih _ _ _)
        · simp only
          split
          · exact Nat.le_succ_of_le (ih _ _ _)
          · exact Nat.le_succ_of_le (ih _ _ _)

theorem fractionPart_length (s1 : Str) : (fractionPart s1).2.2.1.length ≤ s1.length := by
  unfold fractionPart
  cases s1 with
  | nil => simp
  | cons c1 t =>
    simp only
    split
    · exact Nat.le_succ_of_le (leadingFraction_length t 0 0 false)
    · exact Nat.le_refl _

theorem dropWhile_length_lt (p : Char → Bool) (s : Str) (h : (s.takeWhile p).isEmpty = false) :
    (s.dropWhile p).length < s.length := by
  have h1 : (s.takeWhile p).length + (s.dropWhile p).length = s.length := by
    rw [← List.length_append, List.takeWhile_append_dropWhile]
  have h2 : 0 < (s.takeWhile p).length := by
    cases hs : s.takeWhile p with
    | nil => rw [hs] at h; exact absurd h (by decide)
    | cons a r => simp
  omega

/-- Fuel beyond the length of the text does not change the result of
`parseDurationLoop`: the loop of `time.ParseDuration` ends within `len(s)` rounds. -/
theorem parseDurationLoop_fuel (R : Runtime) : ∀ (fuel k : Nat) (s : Str) (d : Nat),
    s.length ≤ fuel → parseDurationLoop R (fuel + k) s d = parseDurationLoop R fuel s d := by
  intro fuel
  induction fuel with
  | zero =>
    intro k s d hs
    cases s with
    | nil => simp [parseDurationLoop]
    | cons c cs => simp at hs
  | succ f ih =>
    intro k s d hs
    cases s with
    | nil => simp [parseDurationLoop]
    | cons c cs =>
      rw [show f + 1 + k = (f + k) + 1 by omega, parseDurationLoop, parseDurationLoop]
      split
      · rfl
      · split
        · rfl
        · rename_i v s1 hli
          have h1 := leadingInt_length _ _ _ _ hli
          have h2 := fractionPart_length s1
          by_cases hu : (List.takeWhile (fun x => !endsUnit x) (fractionPart s1).2.2.1).isEmpty
              = true
          · simp only [hu, if_true]
          · have h3 := dropWhile_length_lt (fun x => !endsUnit x) (fractionPart s1).2.2.1
              (by simpa using hu)
            have key : ∀ d1, parseDurationLoop R (f + k)
                (List.dropWhile (fun x => !endsUnit x) (fractionPart s1).2.2.1) d1 =
                parseDurationLoop R f
                  (List.dropWhile (fun x => !endsUnit x) (fractionPart s1).2.2.1) d1 := by
              intro d1
              apply ih
              simp only [List.length_cons] at hs h1
              omega
            simp only [key]

/-! ## Derived identifiers (C11) -/

theorem mem_of_mem_splitOnP (p : Char → Bool) : ∀ (xs seg : Str) (c : Char),
    seg ∈ xs.splitOnP p → c ∈ seg → c ∈ xs := by
  intro xs
  induction xs with
  | nil =>
    intro seg c hs hc
    simp only [List.splitOnP_nil, List.mem_singleton] at hs
    rw [hs] at hc
    exact hc
  | cons x xs ih =>
    intro seg c hs hc
    rw [List.splitOnP_cons] at hs
    split at hs
    · rcases List.mem_cons.1 hs with h | h
      · rw [h] at hc
        exact absurd hc (List.not_mem_nil c)
      · exact List.mem_cons_of_mem x (ih seg c h hc)
    · cases hsp : List.splitOnP p xs with
      | nil => exact absurd hsp (List.splitOnP_ne_nil p xs)
      | cons hd tl =>
        rw [hsp] at hs ih
        simp only [List.modifyHead_cons, List.mem_cons] at hs
        rcases hs with h | h
        · rw [h] at hc
          rcases List.mem_cons.1 hc with h1 | h1
          · rw [h1]
            exact List.mem_cons_self x xs
          · exact List.mem_cons_of_mem x (ih hd c (List.mem_cons_self hd tl) h1)
        · exact List.mem_cons_of_mem x (ih seg c (List.mem_cons_of_mem hd h) hc)

theorem isSnakeChar_iff (c : Char) : isSnakeChar c = true ↔
    ((97 ≤ c.toNat ∧ c.toNat ≤ 122) ∨ (48 ≤ c.toNat ∧ c.toNat ≤ 57) ∨ c.toNat = 95) := by
  simp only [isSnakeChar, Bool.or_eq_true, Bool.and_eq_true, decide_eq_true_eq, beq_iff_eq,
    or_assoc]

theorem isSeparator_snake (R : Runtime) (c : Char) (h : isSnakeChar c = true) :
    isSeparator R c = false := by
  rw [isSnakeChar_iff] at h
  have h1 : c.toNat ≤ 127 := by omega
  simp only [isSeparator, h1, if_true, isDigit, Bool.not_eq_false', Bool.or_eq_true,
    Bool.and_eq_true, decide_eq_true_eq, beq_iff_eq]
  omega

theorem toTitleRune_snake (R : Runtime) (c : Char) (h : isSnakeChar c = true) :
    toTitleRune R c = c.toUpper := by
  rw [isSnakeChar_iff] at h
  have h1 : c.toNat ≤ 127 := by omega
  by_cases h2 : 97 ≤ c.toNat ∧ c.toNat ≤ 122
  · simp [toTitleRune, Char.toUpper, h1, h2.1, h2.2]
  · have h3 : ¬ (c.toNat ≥ 97 ∧ c.toNat ≤ 122) := h2
    simp only [toTitleRune, Char.toUpper, h1, if_true, h3, if_false, Bool.and_eq_true,
      decide_eq_true_eq, h2]

theorem titleFrom_snake (R : Runtime) : ∀ (s : Str) (prev : Char),
    isSeparator R prev = false → (∀ c ∈ s, isSnakeChar c = true) → titleFrom R prev s = s := by
  intro s
  induction s with
  | nil => intro prev _ _; rfl
  | cons a r ih =>
    intro prev hp hs
    have ha := isSeparator_snake R a (hs a (List.mem_cons_self a r))
    rw [titleFrom, ih a ha (fun c hc => hs c (List.mem_cons_of_mem a hc))]
    simp [hp]

theorem title_snake (R : Runtime) (s : Str) (hs : ∀ c ∈ s, isSnakeChar c = true) :
    title R s = capitalize s := by
  cases s with
  | nil => rfl
  | cons a r =>
    have ha := hs a (List.mem_cons_self a r)
    have hsp : isSeparator R ' ' = true := by
      simp [isSeparator, isDigit]
    rw [title, titleFrom,
      titleFrom_snake R r a (isSeparator_snake R a ha) (fun c hc => hs c (List.mem_cons_of_mem a hc))]
    simp only [hsp, if_true, toTitleRune_snake R a ha, capitalize]

/-- C11: for a field name made of ASCII lower-case letters, digits and
underscores, `toCamel` is the concatenation, in order, of the segments between
underscores, each with its first character upper-cased and the rest unchanged;
`auth_required_methods` gives `AuthRequiredMethods` and `app_name` gives `AppName`. -/
theorem toCamel_snake (R : Runtime) (name : Str) (h : ∀ c ∈ name, isSnakeChar c = true) :
    toCamel R name = ((name.splitOn '_').map capitalize).flatten ∧
    toCamel R "auth_required_methods".toList = "AuthRequiredMethods".toList ∧
    toCamel R "app_name".toList = "AppName".toList := by
  refine ⟨?_, rfl, rfl⟩
  unfold toCamel
  congr 1
  apply List.map_congr_left
  intro seg hseg
  exact title_snake R seg (fun c hc => h c (mem_of_mem_splitOnP _ name seg c hseg hc))

/-- C11 at the field name `max_conn_2` of a runtime with empty tables. -/
theorem toCamel_snake_witness :
    toCamel Runtime.basic "max_conn_2".toList = "MaxConn2".toList :=
  (toCamel_snake Runtime.basic "max_conn_2".toList (by decide)).1.trans (by decide)

/-! ## Type inference (C13) -/

theorem detectType_ne_duration (v : Value) : detectType v ≠ "duration".toList := by
  cases v <;> simp [detectType]

/-- C13: `detectType` returns `string` for a string, `int` for an integer,
`float64` for a float, `bool` for a boolean, `map[string]any` for a mapping,
`[]any` for a list and `any` for every other value, null included; it never
returns `duration`. -/
theorem detectType_kinds :
    (∀ s, detectType (Value.str s) = "string".toList) ∧
    (∀ n, detectType (Value.int n) = "int".toList) ∧
    (∀ b, detectType (Value.float64 b) = "float64".toList) ∧
    (∀ b, detectType (Value.bool b) = "bool".toList) ∧
    (∀ m, detectType (Value.map m) = "map[string]any".toList) ∧
    (∀ xs, detectType (Value.list xs) = "[]any".toList) ∧
    (∀ n, detectType (Value.uint64 n) = "any".toList) ∧
    detectType Value.null = "any".toList ∧
    (∀ v, detectType v ≠ "duration".toList) :=
  ⟨fun _ => rfl, fun _ => rfl, fun _ => rfl, fun _ => rfl, fun _ => rfl, fun _ => rfl,
    fun _ => rfl, rfl, detectType_ne_duration⟩

/-! ## Where synthesis can abort (C19) -/

mutual
theorem formatDefaultValue_isSome (R : Runtime) (ρ : RangeOrder) :
    ∀ (v : Value) (p : List Nat) (t : Str), (t ≠ "duration".toList ∨ v.isStr = false) →
      ∃ lit, formatDefaultValue R ρ p v t = some lit
  | .str s, p, t, h => by
    have ht : t ≠ "duration".toList := by
      rcases h with h | h
      · exact h
      · exact absurd h (by simp [Value.isStr])
    rw [formatDefaultValue]
    simp only [ht, if_false]
    split
    · exact ⟨_, rfl⟩
    · exact ⟨_, rfl⟩
  | .int n, p, t, _ => ⟨_, by rw [formatDefaultValue]⟩
  | .uint64 n, p, t, _ => ⟨_, by rw [formatDefaultValue]⟩
  | .float64 b, p, t, _ => ⟨_, by rw [formatDefaultValue]⟩
  | .bool b, p, t, _ => ⟨_, by rw [formatDefaultValue]⟩
  | .null, p, t, _ => ⟨_, by rw [formatDefaultValue]⟩
  | .list [], p, t, _ => ⟨_, by rw [formatDefaultValue]⟩
  | .list (x :: xs), p, t, _ => by
    obtain ⟨lits, hl⟩ := formatElems_isSome R ρ (x :: xs) p 0
    rw [formatDefaultValue, hl]
    exact ⟨_, rfl⟩
  | .map m, p, t, _ => by
    obtain ⟨lits, hl⟩ := formatEntries_isSome R ρ m p 0
    rw [formatDefaultValue, hl]
    simp only
    split
    · exact ⟨_, rfl⟩
    · split
      · exact ⟨_, rfl⟩
      · exact ⟨_, rfl⟩
theorem formatElems_isSome (R : Runtime) (ρ : RangeOrder) :
    ∀ (xs : List Value) (p : List Nat) (i : Nat), ∃ lits, formatElems R ρ p i xs = some lits
  | [], p, i => ⟨[], by rw [formatElems]⟩
  | e :: es, p, i => by
    obtain ⟨lit, h1⟩ := formatDefaultValue_isSome R ρ e (i :: p) (detectType e)
      (Or.inl (detectType_ne_duration e))
    obtain ⟨lits, h2⟩ := formatElems_isSome R ρ es p (i + 1)
    rw [formatElems, h1, h2]
    exact ⟨_, rfl⟩
theorem formatEntries_isSome (R : Runtime) (ρ : RangeOrder) :
    ∀ (m : List (Value × Value)) (p : List Nat) (i : Nat),
      ∃ lits, formatEntries R ρ p i m = some lits
  | [], p, i => ⟨[], by rw [formatEntries]⟩
  | (k, v) :: rest, p, i => by
    obtain ⟨klit, h1⟩ := formatDefaultValue_isSome R ρ k ((2 * i) :: p) (detectType k)
      (Or.inl (detectType_ne_duration k))
    obtain ⟨vlit, h2⟩ := formatDefaultValue_isSome R ρ v ((2 * i + 1) :: p) (detectType v)
      (Or.inl (detectType_ne_duration v))
    obtain ⟨lits, h3⟩ := formatEntries_isSome R ρ rest p (i + 1)
    rw [formatEntries, h1, h2, h3]
    exact ⟨_, rfl⟩
end

theorem formatDefaultValue_specType (R : Runtime) (ρ : RangeOrder) (p : List Nat) (v : Value)
    (t1 t2 : Str) (h1 : t1 ≠ "duration".toList ∨ v.isStr = false)
    (h2 : t2 ≠ "duration".toList ∨ v.isStr = false) :
    formatDefaultValue R ρ p v t1 = formatDefaultValue R ρ p v t2 := by
  cases v with
  | str s =>
    have ht1 : t1 ≠ "duration".toList := h1.resolve_right (by simp [Value.isStr])
    have ht2 : t2 ≠ "duration".toList := h2.resolve_right (by simp [Value.isStr])
    rw [formatDefaultValue, formatDefaultValue]
    simp only [ht1, ht2, if_false]
  | int n => rw [formatDefaultValue, formatDefaultValue]
  | uint64 n => rw [formatDefaultValue, formatDefaultValue]
  | float64 b => rw [formatDefaultValue, formatDefaultValue]
  | bool b => rw [formatDefaultValue, formatDefaultValue]
  | null => rw [formatDefaultValue, formatDefaultValue]
  | list xs =>
    cases xs with
    | nil => rw [formatDefaultValue, formatDefaultValue]
    | cons x r => rw [formatDefaultValue, formatDefaultValue]
  | map m => rw [formatDefaultValue, formatDefaultValue]

/-- C19: when the declared type is not `duration` or the value is not a string,
`formatDefaultValue` returns a literal, and the literal is the same for every
other declared type under which that condition holds. -/
theorem formatDefaultValue_aborts_only_declared (R : Runtime) (ρ : RangeOrder) (p : List Nat)
    (v : Value) (t : Str) (h : t ≠ "duration".toList ∨ v.isStr = false) :
    (∃ lit, formatDefaultValue R ρ p v t = some lit) ∧
    (∀ t2 : Str, (t2 ≠ "duration".toList ∨ v.isStr = false) →
      formatDefaultValue R ρ p v t2 = formatDefaultValue R ρ p v t) :=
  ⟨formatDefaultValue_isSome R ρ v p t h,
    fun t2 h2 => formatDefaultValue_specType R ρ p v t2 t h2 h⟩

/-- C19 at the list `["1.5d"]` declared as a duration: a literal is returned
although `"1.5d"` itself would abort as a declared duration, and it is the
literal returned under the declared type `[]string`. -/
theorem formatDefaultValue_aborts_only_declared_witness :
    (∃ lit, formatDefaultValue Runtime.basic RangeOrder.stored []
      (Value.list [Value.str "1.5d".toList]) "duration".toList = some lit) ∧
    formatDefaultValue Runtime.basic RangeOrder.stored []
      (Value.list [Value.str "1.5d".toList]) "[]string".toList =
      formatDefaultValue Runtime.basic RangeOrder.stored []
        (Value.list [Value.str "1.5d".toList]) "duration".toList ∧
    formatDefaultValue Runtime.basic RangeOrder.stored [] (Value.str "1.5d".toList)
      "duration".toList = none :=
  have h := formatDefaultValue_aborts_only_declared Runtime.basic RangeOrder.stored []
    (Value.list [Value.str "1.5d".toList]) "duration".toList (Or.inr rfl)
  ⟨h.1, h.2 "[]string".toList (Or.inr rfl), by decide⟩

/-! ## List literals (C14, C15) -/

theorem formatElems_spec (R : Runtime) (ρ : RangeOrder) (p : List Nat) :
    ∀ (xs : List Value) (i : Nat) (lits : List Str), formatElems R ρ p i xs = some lits →
      lits.length = xs.length ∧
      ∀ j e, xs[j]? = some e →
        ∃ lit, lits[j]? = some lit ∧
          formatDefaultValue R ρ ((i + j) :: p) e (detectType e) = some lit := by
  intro xs
  induction xs with
  | nil =>
    intro i lits h
    rw [formatElems] at h
    simp only [Option.some.injEq] at h
    subst h
    exact ⟨rfl, fun j e he => by simp at he⟩
  | cons a r ih =>
    intro i lits h
    rw [formatElems] at h
    cases h1 : formatDefaultValue R ρ (i :: p) a (detectType a) with
    | none => simp [h1] at h
    | some lit =>
      cases h2 : formatElems R ρ p (i + 1) r with
      | none => simp [h1, h2] at h
      | some rest =>
        simp only [h1, h2, Option.some.injEq] at h
        subst h
        obtain ⟨hlen, hrest⟩ := ih (i + 1) rest h2
        refine ⟨by simp [hlen], ?_⟩
        intro j e he
        cases j with
        | zero =>
          simp only [List.getElem?_cons_zero, Option.some.injEq] at he
          subst he
          exact ⟨lit, List.getElem?_cons_zero, h1⟩
        | succ k =>
          simp only [List.getElem?_cons_succ] at he
          obtain ⟨l, hl1, hl2⟩ := hrest k e he
          refine ⟨l, by simpa using hl1, ?_⟩
          rw [show i + (k + 1) = i + 1 + k by omega]
          exact hl2

/-- C14: a non-empty list is synthesised as `[]` + `T` + `{` + the element
literals joined by `", "` in list order + `}`, where `T` is `detectType` of the
first element and the literal at position `i` is what `formatDefaultValue`
returns for the element at position `i` with declared type `T`. -/
theorem formatDefaultValue_list (R : Runtime) (ρ : RangeOrder) (p : List Nat) (x : Value)
    (xs : List Value) (t : Str) :
    ∃ lits : List Str, lits.length = (x :: xs).length ∧
      (∀ i e, (x :: xs)[i]? = some e →
        ∃ lit, lits[i]? = some lit ∧
          formatDefaultValue R ρ (i :: p) e (detectType x) = some lit) ∧
      formatDefaultValue R ρ p (Value.list (x :: xs)) t =
        some ("[]".toList ++ detectType x ++ "\x7b".toList ++ joinComma lits ++ "\x7d".toList) := by
  obtain ⟨lits, hl⟩ := formatElems_isSome R ρ (x :: xs) p 0
  obtain ⟨hlen, hel⟩ := formatElems_spec R ρ p (x :: xs) 0 lits hl
  refine ⟨lits, hlen, ?_, ?_⟩
  · intro i e he
    obtain ⟨lit, h1, h2⟩ := hel i e he
    refine ⟨lit, h1, ?_⟩
    rw [Nat.zero_add] at h2
    rw [← h2]
    exact formatDefaultValue_specType R ρ (i :: p) e _ _
      (Or.inl (detectType_ne_duration x)) (Or.inl (detectType_ne_duration e))
  · rw [formatDefaultValue, hl]

theorem formatElems_strings (R : Runtime) (ρ : RangeOrder) (p : List Nat) :
    ∀ (ss : List Str) (i : Nat), (∀ s ∈ ss, parseDuration R s = none) →
      formatElems R ρ p i (ss.map Value.str) = some (ss.map (quote R)) := by
  intro ss
  induction ss with
  | nil => intro i _; rw [List.map_nil, formatElems]; rfl
  | cons a r ih =>
    intro i h
    have ha : parseDuration R a = none := h a (List.mem_cons_self a r)
    have hs : ¬ ("string".toList = "duration".toList) := by decide
    rw [List.map_cons, formatElems, ih (i + 1) (fun s hs => h s (List.mem_cons_of_mem a hs))]
    simp only [detectType, formatDefaultValue, hs, if_false, looksLikeDuration, ha,
      Option.isSome_none, Bool.false_eq_true, List.map_cons]

/-- A non-empty list whose elements are all strings that do not parse as
native durations is synthesised as `[]string{` + the quoted elements joined by
`", "`, in list order, + `}`, and every quoted element is a string literal that
denotes the corresponding element. -/
theorem formatDefaultValue_string_list (R : Runtime) (ρ : RangeOrder) (p : List Nat)
    (ss : List Str) (t : Str) (hne : ss ≠ []) (hd : ∀ s ∈ ss, parseDuration R s = none) :
    formatDefaultValue R ρ p (Value.list (ss.map Value.str)) t =
      some ("[]string\x7b".toList ++ joinComma (ss.map (quote R)) ++ "\x7d".toList) ∧
    (∀ s ∈ ss, evalLiteral R (quote R s) = some (GoValue.str s)) := by
  refine ⟨?_, fun s _ => evalLiteral_quote R s⟩
  cases ss with
  | nil => exact absurd rfl hne
  | cons a r =>
    have h := formatElems_strings R ρ p (a :: r) 0 hd
    rw [List.map_cons] at h ⊢
    rw [formatDefaultValue, h]
    simp [detectType]

/-- The list `["GET", "POST"]` is synthesised as `[]string{"GET", "POST"}`. -/
theorem formatDefaultValue_string_list_methods :
    formatDefaultValue Runtime.basic RangeOrder.stored []
        (Value.list [Value.str "GET".toList, Value.str "POST".toList]) "[]string".toList =
      some "[]string\x7b\x22GET\x22, \x22POST\x22\x7d".toList :=
  (formatDefaultValue_string_list Runtime.basic RangeOrder.stored []
    ["GET".toList, "POST".toList] "[]string".toList (by decide) (by decide)).1

/-- C15: at the list `["5s"]`, all of whose elements are strings, the literal is
`[]string{` + the run-time parsing function literal + `}`: the element type is
named `string` by `detectType`, and the element is not the quoted string `"5s"`
of the claim but an expression that denotes a `time.Duration`. -/
theorem formatDefaultValue_duration_element :
    formatDefaultValue Runtime.basic RangeOrder.stored [] (Value.list [Value.str "5s".toList])
        "[]string".toList =
      some ("[]string\x7b".toList ++
        "func() time.Duration \x7b\n\t\t\t\td, _ := time.ParseDuration(\x225s\x22)".toList ++
        "\n\t\t\t\treturn d\n\t\t\t\x7d()".toList ++
        "\x7d".toList) ∧
    formatDefaultValue Runtime.basic RangeOrder.stored [] (Value.list [Value.str "5s".toList])
        "[]string".toList ≠ some "[]string\x7b\x225s\x22\x7d".toList ∧
    detectType (Value.str "5s".toList) = "string".toList ∧
    evalLiteral Runtime.basic
        ("func() time.Duration \x7b\n\t\t\t\td, _ := time.ParseDuration(\x225s\x22)".toList ++
        "\n\t\t\t\treturn d\n\t\t\t\x7d()".toList) =
      some (GoValue.duration 5000000000) := by
  decide

/-! ## Integers and booleans (C17) -/

/-- C17: for every integer and every declared type the literal is the decimal
rendering of the integer, with a leading `-` when it is negative, and for every
boolean it is `true` or `false`; read back, the text denotes the integer,
respectively the boolean. -/
theorem formatDefaultValue_int_bool (R : Runtime) (ρ : RangeOrder) (p : List Nat) (t : Str) :
    (∀ n : Nat, formatDefaultValue R ρ p (Value.int (n : Int)) t = some (Nat.toDigits 10 n)) ∧
    (∀ n : Nat, formatDefaultValue R ρ p (Value.int (-((n : Int) + 1))) t =
      some ('-' :: Nat.toDigits 10 (n + 1))) ∧
    (∀ z : Int, ∃ lit, formatDefaultValue R ρ p (Value.int z) t = some lit ∧
      evalLiteral R lit = some (GoValue.int z)) ∧
    formatDefaultValue R ρ p (Value.bool true) t = some "true".toList ∧
    formatDefaultValue R ρ p (Value.bool false) t = some "false".toList ∧
    evalLiteral R "true".toList = some (GoValue.bool true) ∧
    evalLiteral R "false".toList = some (GoValue.bool false) := by
  refine ⟨?_, ?_, ?_, ?_, ?_, rfl, rfl⟩
  · intro n
    rw [formatDefaultValue]
    rfl
  · intro n
    rw [formatDefaultValue]
    rw [show -((n : Int) + 1) = Int.negSucc n from rfl]
    rfl
  · intro z
    exact ⟨fmtInt z, by rw [formatDefaultValue], evalLiteral_fmtInt R z⟩
  · rw [formatDefaultValue]
    rfl
  · rw [formatDefaultValue]
    rfl

/-! ## Field descriptors (C12, C18, C20) -/

theorem buildField_shape (R : Runtime) (ρ : RangeOrder) (i : Nat) (name : Str)
    (spec : FieldSpec) (f : Field) (h : buildField R ρ i name spec = some f) :
    f.OriginalName = name ∧ f.Name = toCamel R name ∧ f.VarName = toCamel R name ∧
    f.Typ = (if spec.Typ = "duration".toList then "time.Duration".toList else spec.Typ) ∧
    f.Description = spec.Description ∧
    formatDefaultValue R ρ [i] spec.Default spec.Typ = some f.Default := by
  unfold buildField at h
  cases hd : formatDefaultValue R ρ [i] spec.Default spec.Typ with
  | none => simp [hd] at h
  | some lit =>
    simp only [hd, Option.some.injEq] at h
    subst h
    exact ⟨rfl, rfl, rfl, rfl, rfl, rfl⟩

theorem visitSchema_snd_perm (ρ : RangeOrder) (config : List (Str × FieldSpec)) :
    ((visitSchema ρ config).map (fun e => e.2)).Perm config := by
  unfold visitSchema
  rw [List.map_filterMap]
  have hf : (fun i => Option.map (fun e : Nat × Str × FieldSpec => e.2)
      (Option.map (fun e => (i, e)) config[i]?)) = (fun i => config[i]?) := by
    funext i
    cases config[i]? <;> rfl
  rw [hf]
  exact rangeOver_perm ρ [] 0 config

theorem map_eq_of_map_some {α β γ : Type} (build : α → Option β) (π : β → γ) (proj : α → γ)
    (hb : ∀ a b, build a = some b → π b = proj a) :
    ∀ (l : List α) (fs : List β), l.map build = fs.map some → fs.map π = l.map proj := by
  intro l
  induction l with
  | nil =>
    intro fs h
    cases fs with
    | nil => rfl
    | cons b r => simp at h
  | cons a r ih =>
    intro fs h
    cases fs with
    | nil => simp at h
    | cons b t =>
      simp only [List.map_cons, List.cons.injEq] at h ⊢
      exact ⟨hb a b h.1, ih t h.2⟩

theorem parseFields_eq_some (R : Runtime) (ρ : RangeOrder) (config : List (Str × FieldSpec))
    (fields : List Field) (u : Bool) (h : parseFields R ρ config = some (fields, u)) :
    (visitSchema ρ config).map (fun e => buildField R ρ e.1 e.2.1 e.2.2) = fields.map some ∧
    u = (visitSchema ρ config).any (fun e => e.2.2.Typ == "duration".toList) := by
  unfold parseFields at h
  cases ha : allSome ((visitSchema ρ config).map (fun e => buildField R ρ e.1 e.2.1 e.2.2)) with
  | none => simp [ha] at h
  | some fs =>
    simp only [ha, Option.some.injEq, Prod.mk.injEq] at h
    rw [← h.1, ← h.2]
    exact ⟨allSome_eq_some _ _ ha, rfl⟩

theorem parseFields_projection (R : Runtime) (ρ : RangeOrder)
    (config : List (Str × FieldSpec)) (fields : List Field) (u : Bool)
    (h : parseFields R ρ config = some (fields, u)) :
    (fields.map (fun f => (f.OriginalName, f.Name, f.VarName, f.Typ, f.Description))).Perm
      (config.map (fun e => (e.1, toCamel R e.1, toCamel R e.1,
        (if e.2.Typ = "duration".toList then "time.Duration".toList else e.2.Typ),
        e.2.Description))) ∧
    (u = true ↔ ∃ e ∈ config, e.2.Typ = "duration".toList) := by
  obtain ⟨h1, h2⟩ := parseFields_eq_some R ρ config fields u h
  constructor
  · have h3 := map_eq_of_map_some (fun e : Nat × Str × FieldSpec => buildField R ρ e.1 e.2.1 e.2.2)
      (fun f : Field => (f.OriginalName, f.Name, f.VarName, f.Typ, f.Description))
      (fun e => (e.2.1, toCamel R e.2.1, toCamel R e.2.1,
        (if e.2.2.Typ = "duration".toList then "time.Duration".toList else e.2.2.Typ),
        e.2.2.Description))
      (fun a b hab => by
        obtain ⟨e1, e2, e3, e4, e5, -⟩ := buildField_shape R ρ a.1 a.2.1 a.2.2 b hab
        show (b.OriginalName, b.Name, b.VarName, b.Typ, b.Description) = _
        rw [e1, e2, e3, e4, e5])
      (visitSchema ρ config) fields h1
    rw [h3]
    have h4 := (visitSchema_snd_perm ρ config).map (fun e : Str × FieldSpec =>
      (e.1, toCamel R e.1, toCamel R e.1,
        (if e.2.Typ = "duration".toList then "time.Duration".toList else e.2.Typ),
        e.2.Description))
    rw [List.map_map] at h4
    exact h4
  · rw [h2, List.any_eq_true]
    have hp := visitSchema_snd_perm ρ config
    constructor
    · rintro ⟨x, hx, hx2⟩
      exact ⟨x.2, hp.mem_iff.1 (List.mem_map_of_mem (fun e => e.2) hx), by simpa using hx2⟩
    · rintro ⟨e, he, he2⟩
      obtain ⟨x, hx, rfl⟩ := List.mem_map.1 (hp.mem_iff.2 he)
      exact ⟨x, hx, by simpa using he2⟩

/-- C12: when `parseFields` succeeds it returns one Field per schema entry, with
`OriginalName` the entry's name, `Name` and `VarName` equal to `toCamel` of the
name, `Description` copied, and `Type` equal to `time.Duration` when the type tag
is `duration` and to the type tag otherwise; the boolean is true exactly when
some entry has the type tag `duration`. -/
theorem parseFields_fields (R : Runtime) (ρ : RangeOrder) (config : List (Str × FieldSpec))
    (fields : List Field) (u : Bool) (h : parseFields R ρ config = some (fields, u)) :
    fields.length = config.length ∧
    (fields.map (fun f => (f.OriginalName, f.Name, f.VarName, f.Typ, f.Description))).Perm
      (config.map (fun e => (e.1, toCamel R e.1, toCamel R e.1,
        (if e.2.Typ = "duration".toList then "time.Duration".toList else e.2.Typ),
        e.2.Description))) ∧
    (u = true ↔ ∃ e ∈ config, e.2.Typ = "duration".toList) := by
  obtain ⟨h1, h2⟩ := parseFields_projection R ρ config fields u h
  refine ⟨?_, h1, h2⟩
  have := h1.length_eq
  simpa using this

/-- C12 on the two-entry example schema visited in reverse order. -/
theorem parseFields_fields_witness :
    [fieldTimeout, fieldAppName].length = schemaTwo.length ∧
    ([fieldTimeout, fieldAppName].map
      (fun f => (f.OriginalName, f.Name, f.VarName, f.Typ, f.Description))).Perm
      (schemaTwo.map (fun e => (e.1, toCamel Runtime.basic e.1, toCamel Runtime.basic e.1,
        (if e.2.Typ = "duration".toList then "time.Duration".toList else e.2.Typ),
        e.2.Description))) ∧
    (true = true ↔ ∃ e ∈ schemaTwo, e.2.Typ = "duration".toList) :=
  parseFields_fields Runtime.basic RangeOrder.reversed schemaTwo [fieldTimeout, fieldAppName]
    true (by decide)

theorem parseFields_isSome (R : Runtime) (ρ : RangeOrder) (config : List (Str × FieldSpec))
    (h : ∀ e ∈ config, e.2.Typ ≠ "duration".toList ∨ e.2.Default.isStr = false) :
    ∃ fields u, parseFields R ρ config = some (fields, u) := by
  unfold parseFields
  cases ha : allSome ((visitSchema ρ config).map (fun e => buildField R ρ e.1 e.2.1 e.2.2)) with
  | some fs => exact ⟨fs, _, rfl⟩
  | none =>
    exfalso
    rw [allSome_eq_none_iff] at ha
    obtain ⟨x, hx, hx2⟩ := List.mem_map.1 ha
    have hmem : x.2 ∈ config :=
      (visitSchema_snd_perm ρ config).mem_iff.1 (List.mem_map_of_mem (fun e => e.2) hx)
    obtain ⟨lit, hl⟩ := formatDefaultValue_isSome R ρ x.2.2.Default [x.1] x.2.2.Typ (h x.2 hmem)
    simp [buildField, hl] at hx2

/-- C18: the distinct field names `a_b` and `a__b` have the same `toCamel`
image `AB`, and on a schema holding both `parseFields` succeeds, whatever the
iteration order, with two Fields, one per name, that both carry the `Name` `AB`. -/
theorem toCamel_collision (R : Runtime) (ρ : RangeOrder) :
    "a_b".toList ≠ "a__b".toList ∧
    toCamel R "a_b".toList = toCamel R "a__b".toList ∧
    ∃ fields u, parseFields R ρ schemaCollide = some (fields, u) ∧ fields.length = 2 ∧
      (fields.map (fun f => f.OriginalName)).Perm ["a_b".toList, "a__b".toList] ∧
      ∀ f ∈ fields, f.Name = "AB".toList := by
  refine ⟨by decide, rfl, ?_⟩
  obtain ⟨fields, u, h⟩ := parseFields_isSome R ρ schemaCollide (fun e _ => Or.inl (by
    intro hd
    rename_i he
    simp only [schemaCollide, List.mem_cons, List.mem_singleton, List.not_mem_nil, or_false] at he
    rcases he with rfl | rfl <;> exact absurd hd (by decide)))
  obtain ⟨hp, -⟩ := parseFields_projection R ρ schemaCollide fields u h
  refine ⟨fields, u, h, ?_, ?_, ?_⟩
  · have := hp.length_eq
    simpa [schemaCollide] using this
  · have h1 := hp.map (fun x => x.1)
    rw [List.map_map, List.map_map] at h1
    exact h1
  · intro f hf
    have h1 := hp.map (fun x => x.2.1)
    rw [List.map_map, List.map_map] at h1
    have h2 : f.Name ∈ fields.map (fun f => f.Name) := List.mem_map_of_mem (fun f => f.Name) hf
    have h3 := h1.mem_iff.1 h2
    have h4 : List.map ((fun x : Str × Str × Str × Str × Str => x.2.1) ∘ fun e : Str × FieldSpec =>
        (e.1, toCamel R e.1, toCamel R e.1,
          (if e.2.Typ = "duration".toList then "time.Duration".toList else e.2.Typ),
          e.2.Description)) schemaCollide = ["AB".toList, "AB".toList] := rfl
    rw [h4] at h3
    simp only [List.mem_cons, List.mem_singleton, List.not_mem_nil, or_false, or_self] at h3
    exact h3

/-- C20: on the schema whose only field has the type tag `time.Duration` and the
string default `"5s"`, `parseFields` succeeds, the default literal is the
function literal that refers to `time.Duration` and `time.ParseDuration`, the
resolved type is `time.Duration`, and the `usesTime` flag is false. -/
theorem parseFields_inferred_duration :
    parseFields Runtime.basic RangeOrder.stored schemaInferred =
      some ([Field.mk "timeout".toList "Timeout".toList "Timeout".toList "time.Duration".toList
        (durationFuncLiteral "5s".toList) "wait".toList], false) := by
  decide

/-! ## The argument of the function literal -/

/-- Characters that stand for themselves inside a Go string literal. -/
theorem unquoteFrom_plain_text : ∀ s : Str,
    (∀ c ∈ s, c ≠ dquote ∧ c.toNat ≠ 10 ∧ c ≠ backslash) →
      unquoteFrom Esc.plain (s ++ [dquote]) = some s := by
  intro s
  induction s with
  | nil => intro _; rfl
  | cons a r ih =>
    intro h
    obtain ⟨h1, h2, h3⟩ := h a (List.mem_cons_self a r)
    rw [List.cons_append, unquoteFrom_plain a _ h1 h2 h3,
      ih (fun c hc => h c (List.mem_cons_of_mem a hc))]
    rfl

theorem isDigit_plain (c : Char) (h : isDigit c = true) :
    c ≠ dquote ∧ c.toNat ≠ 10 ∧ c ≠ backslash := by
  simp only [isDigit, Bool.and_eq_true, decide_eq_true_eq] at h
  refine ⟨?_, by omega, ?_⟩
  · intro hc
    rw [hc] at h
    exact absurd h (by decide)
  · intro hc
    rw [hc] at h
    exact absurd h (by decide)

theorem leadingInt_split : ∀ (s : Str) (x v : Nat) (r : Str), leadingInt s x = some (v, r) →
    ∃ pre, s = pre ++ r ∧ ∀ c ∈ pre, isDigit c = true := by
  intro s
  induction s with
  | nil =>
    intro x v r h
    simp only [leadingInt, Option.some.injEq, Prod.mk.injEq] at h
    exact ⟨[], by rw [← h.2]; rfl, fun c hc => absurd hc (List.not_mem_nil c)⟩
  | cons a cs ih =>
    intro x v r h
    rw [leadingInt] at h
    split at h
    · simp only [Option.some.injEq, Prod.mk.injEq] at h
      exact ⟨[], by rw [← h.2]; rfl, fun c hc => absurd hc (List.not_mem_nil c)⟩
    · rename_i hd
      split at h
      · exact Option.noConfusion h
      · simp only at h
        split at h
        · exact Option.noConfusion h
        · obtain ⟨pre, h1, h2⟩ := ih _ v r h
          refine ⟨a :: pre, by rw [h1]; rfl, ?_⟩
          intro c hc
          rcases List.mem_cons.1 hc with h3 | h3
          · rw [h3]
            simpa using hd
          · exact h2 c h3

theorem leadingFraction_split : ∀ (s : Str) (x k : Nat) (ov : Bool),
    ∃ pre, s = pre ++ (leadingFraction s x k ov).2.2 ∧ ∀ c ∈ pre, isDigit c = true := by
  intro s
  induction s with
  | nil =>
    intro x k ov
    exact ⟨[], rfl, fun c hc => absurd hc (List.not_mem_nil c)⟩
  | cons a cs ih =>
    intro x k ov
    have step : ∀ x1 k1 ov1, isDigit a = true →
        ∃ pre, a :: cs = pre ++ (leadingFraction cs x1 k1 ov1).2.2 ∧
          ∀ c ∈ pre, isDigit c = true := by
      intro x1 k1 ov1 hd
      obtain ⟨pre, h1, h2⟩ := ih x1 k1 ov1
      refine ⟨a :: pre, by rw [List.cons_append, ← h1], ?_⟩
      intro c hc
      rcases List.mem_cons.1 hc with h3 | h3
      · rw [h3]; exact hd
      · exact h2 c h3
    rw [leadingFraction]
    split
    · exact ⟨[], rfl, fun c hc => absurd hc (List.not_mem_nil c)⟩
    · rename_i hd
      have hd1 : isDigit a = true := by simpa using hd
      split
      · exact step _ _ _ hd1
      · split
        · exact step _ _ _ hd1
        · simp only
          split
          · exact step _ _ _ hd1
          · exact step _ _ _ hd1

theorem fractionPart_split (s1 : Str) :
    ∃ pre, s1 = pre ++ (fractionPart s1).2.2.1 ∧
      ∀ c ∈ pre, c ≠ dquote ∧ c.toNat ≠ 10 ∧ c ≠ backslash := by
  unfold fractionPart
  cases s1 with
  | nil => exact ⟨[], rfl, fun c hc => absurd hc (List.not_mem_nil c)⟩
  | cons c1 t =>
    simp only
    split
    · rename_i hdot
      obtain ⟨pre, h1, h2⟩ := leadingFraction_split t 0 0 false
      refine ⟨c1 :: pre, by rw [List.cons_append, ← h1], ?_⟩
      intro c hc
      rcases List.mem_cons.1 hc with h3 | h3
      · have : c1 = '.' := by simpa using hdot
        rw [h3, this]
        decide
      · exact isDigit_plain c (h2 c h3)
    · exact ⟨[], rfl, fun c hc => absurd hc (List.not_mem_nil c)⟩

theorem unitMap_plain (u : Str) (n : Nat) (h : unitMap u = some n) :
    ∀ c ∈ u, c ≠ dquote ∧ c.toNat ≠ 10 ∧ c ≠ backslash := by
  unfold unitMap at h
  split_ifs at h with h1 h2 h3 h4 h5 h6 h7 h8 <;> (subst u; decide)

theorem parseDurationLoop_plain (R : Runtime) : ∀ (fuel : Nat) (s : Str) (d r : Nat),
    parseDurationLoop R fuel s d = some r →
      ∀ c ∈ s, c ≠ dquote ∧ c.toNat ≠ 10 ∧ c ≠ backslash := by
  intro fuel
  induction fuel with
  | zero =>
    intro s d r h
    cases s with
    | nil => intro c hc; exact absurd hc (List.not_mem_nil c)
    | cons a cs => simp [parseDurationLoop] at h
  | succ f ih =>
    intro s d r h
    cases s with
    | nil => intro c hc; exact absurd hc (List.not_mem_nil c)
    | cons a cs =>
      rw [parseDurationLoop] at h
      split at h
      · exact Option.noConfusion h
      · split at h
        · exact Option.noConfusion h
        · rename_i v s1 hli
          obtain ⟨pre1, e1, p1⟩ := leadingInt_split _ _ _ _ hli
          obtain ⟨pre2, e2, p2⟩ := fractionPart_split s1
          have e3 := List.takeWhile_append_dropWhile (fun x => !endsUnit x)
            (fractionPart s1).2.2.1
          simp only at h
          by_cases hpp : (!((a :: cs).length != s1.length) && !(fractionPart s1).2.2.2) = true
          · rw [if_pos hpp] at h
            exact Option.noConfusion h
          · rw [if_neg hpp] at h
            by_cases hu : (List.takeWhile (fun x => !endsUnit x)
                (fractionPart s1).2.2.1).isEmpty = true
            · rw [if_pos hu] at h
              exact Option.noConfusion h
            · rw [if_neg hu] at h
              cases hum : unitMap (List.takeWhile (fun x => !endsUnit x)
                  (fractionPart s1).2.2.1) with
              | none =>
                rw [hum] at h
                exact Option.noConfusion h
              | some unit =>
                rw [hum] at h
                simp only at h
                have p3 := unitMap_plain _ _ hum
                have p4 : ∀ c ∈ List.dropWhile (fun x => !endsUnit x) (fractionPart s1).2.2.1,
                    c ≠ dquote ∧ c.toNat ≠ 10 ∧ c ≠ backslash := by
                  repeat' (first
                    | exact Option.noConfusion h
                    | exact ih _ _ _ h
                    | split at h)
                intro c hc
                rw [e1, e2, ← e3] at hc
                simp only [List.mem_append] at hc
                rcases hc with hc | hc | hc | hc
                · exact isDigit_plain c (p1 c hc)
                · exact p2 c hc
                · exact p3 c hc
                · exact p4 c hc

theorem parseDuration_plain (R : Runtime) (s : Str) (d : Int) (h : parseDuration R s = some d) :
    ∀ c ∈ s, c ≠ dquote ∧ c.toNat ≠ 10 ∧ c ≠ backslash := by
  unfold parseDuration at h
  simp only at h
  have key : ∀ s1 : Str, (if s1 = ['0'] then some (0 : Int)
      else if s1.isEmpty = true then none
      else
        match parseDurationLoop R s1.length s1 0 with
        | none => none
        | some d =>
          if (s.head? == some '-') = true then some (-(d : Int))
          else if d > 2 ^ 63 - 1 then none
          else some (d : Int)) = some d →
      ∀ c ∈ s1, c ≠ dquote ∧ c.toNat ≠ 10 ∧ c ≠ backslash := by
    intro s1 h1
    split at h1
    · rename_i h0
      rw [h0]
      decide
    · split at h1
      · exact Option.noConfusion h1
      · split at h1
        · exact Option.noConfusion h1
        · rename_i d1 hl
          exact parseDurationLoop_plain R _ _ _ _ hl
  by_cases hs : (s.head? == some '-' || s.head? == some '+') = true
  · rw [if_pos hs] at h
    have ht := key s.tail h
    cases s with
    | nil => intro c hc; exact absurd hc (List.not_mem_nil c)
    | cons a r =>
      intro c hc
      rcases List.mem_cons.1 hc with h3 | h3
      · have ha : a = '-' ∨ a = '+' := by simpa using hs
        rw [h3]
        rcases ha with ha | ha <;> (rw [ha]; decide)
      · exact ht c h3
  · rw [if_neg hs] at h
    exact key s h

theorem funcLiteral_middle (s : Str) :
    ((durationFuncLiteral s).drop funcLiteralHead.length).take
      ((durationFuncLiteral s).length - funcLiteralHead.length - funcLiteralTail.length) =
      dquote :: (s ++ [dquote]) := by
  have h1 : durationFuncLiteral s =
      funcLiteralHead ++ ((dquote :: (s ++ [dquote])) ++ funcLiteralTail) := by
    simp [durationFuncLiteral]
  have h2 : (durationFuncLiteral s).length - funcLiteralHead.length - funcLiteralTail.length =
      (dquote :: (s ++ [dquote])).length := by
    rw [h1]
    simp only [List.length_append, List.length_cons]
    omega
  rw [h2, h1, List.drop_left, List.take_left]

/-- The function literal emitted for a string that parses as a native duration
denotes that duration: its argument, put between quotes as it is, is a string
literal of the same text. -/
theorem evalLiteral_durationFuncLiteral (R : Runtime) (s : Str) (d : Int)
    (h : parseDuration R s = some d) :
    evalLiteral R (durationFuncLiteral s) = some (GoValue.duration d) := by
  have hplain := unquoteFrom_plain_text s (parseDuration_plain R s d h)
  have hmid := funcLiteral_middle s
  have hpre : funcLiteralHead.isPrefixOf (durationFuncLiteral s) = true := by
    rw [List.isPrefixOf_iff_prefix]
    exact ⟨[dquote] ++ s ++ [dquote] ++ funcLiteralTail, by simp [durationFuncLiteral]⟩
  have hsuf : hasSuffix (durationFuncLiteral s) funcLiteralTail = true := by
    unfold durationFuncLiteral
    exact hasSuffix_append _ _
  obtain ⟨tl, htl⟩ : ∃ tl, durationFuncLiteral s = 'f' :: 'u' :: tl := ⟨_, rfl⟩
  have ht : ¬ (durationFuncLiteral s = "true".toList) := by
    rw [htl]
    intro hc
    exact absurd (List.cons.inj hc).1 (by decide)
  have hf : ¬ (durationFuncLiteral s = "false".toList) := by
    rw [htl]
    intro hc
    exact absurd (List.cons.inj (List.cons.inj hc).2).1 (by decide)
  unfold evalLiteral
  rw [if_neg ht, if_neg hf]
  rw [htl] at hpre hsuf hmid ⊢
  have c1 : ('f' == dquote) = false := by decide
  have c2 : ('f' == '-') = false := by decide
  have c3 : isDigit 'f' = false := by decide
  simp only [c1, c2, c3, Bool.false_eq_true, if_false, hpre, hsuf, Bool.and_self, if_true, hmid,
    beq_self_eq_true, unquoteBody, hplain, Option.map_some', h, Option.getD_some]

/-! ## Strings under an undeclared duration (C16) -/

/-- The text of the function literal: the format string of `main.go`, lines 109
to 112, with `s` in place of `%s`. -/
theorem durationFuncLiteral_text (s : Str) :
    durationFuncLiteral s =
      "func() time.Duration \x7b\n\t\t\t\td, _ := time.ParseDuration(\x22".toList ++ s ++
        "\x22)\n\t\t\t\treturn d\n\t\t\t\x7d()".toList := by
  simp [durationFuncLiteral, funcLiteralHead, funcLiteralTail, dquote]

/-- C16: for a string `s` and a declared type other than `duration`: when `s`
parses as a native duration the literal is the function literal
`func() time.Duration {`, `d, _ := time.ParseDuration("s")`, `return d`, `}()`,
laid out as in the source, an expression that denotes the duration of `s`;
otherwise it is the quoted string literal of `s`, which denotes `s`. -/
theorem formatDefaultValue_string (R : Runtime) (ρ : RangeOrder) (p : List Nat) (s t : Str)
    (ht : t ≠ "duration".toList) :
    (∀ d : Int, parseDuration R s = some d →
      formatDefaultValue R ρ p (Value.str s) t =
        some ("func() time.Duration \x7b\n\t\t\t\td, _ := time.ParseDuration(\x22".toList ++ s ++
          "\x22)\n\t\t\t\treturn d\n\t\t\t\x7d()".toList) ∧
      evalLiteral R
        ("func() time.Duration \x7b\n\t\t\t\td, _ := time.ParseDuration(\x22".toList ++ s ++
          "\x22)\n\t\t\t\treturn d\n\t\t\t\x7d()".toList) = some (GoValue.duration d)) ∧
    (parseDuration R s = none →
      formatDefaultValue R ρ p (Value.str s) t = some (quote R s) ∧
      quote R s = "\x22".toList ++ quoteBody R s ++ "\x22".toList ∧
      evalLiteral R (quote R s) = some (GoValue.str s)) := by
  constructor
  · intro d h
    rw [← durationFuncLiteral_text]
    refine ⟨?_, evalLiteral_durationFuncLiteral R s d h⟩
    rw [formatDefaultValue]
    simp only [ht, if_false, looksLikeDuration, h, Option.isSome_some, if_true]
  · intro h
    refine ⟨?_, rfl, evalLiteral_quote R s⟩
    rw [formatDefaultValue]
    simp only [ht, if_false, looksLikeDuration, h, Option.isSome_none, Bool.false_eq_true]

/-- C16 at the strings `"5s"` and `"myapp"` with declared type `string`. -/
theorem formatDefaultValue_string_witness :
    (formatDefaultValue Runtime.basic RangeOrder.stored [] (Value.str "5s".toList)
        "string".toList =
      some ("func() time.Duration \x7b\n\t\t\t\td, _ := time.ParseDuration(\x225s\x22)".toList ++
        "\n\t\t\t\treturn d\n\t\t\t\x7d()".toList) ∧
      evalLiteral Runtime.basic
        ("func() time.Duration \x7b\n\t\t\t\td, _ := time.ParseDuration(\x225s\x22)".toList ++
        "\n\t\t\t\treturn d\n\t\t\t\x7d()".toList) =
        some (GoValue.duration 5000000000)) ∧
    (formatDefaultValue Runtime.basic RangeOrder.stored [] (Value.str "myapp".toList)
        "string".toList = some "\x22myapp\x22".toList ∧
      evalLiteral Runtime.basic "\x22myapp\x22".toList = some (GoValue.str "myapp".toList)) :=
  have h1 := (formatDefaultValue_string Runtime.basic RangeOrder.stored [] "5s".toList
    "string".toList (by decide)).1 5000000000 (by decide)
  have h2 := (formatDefaultValue_string Runtime.basic RangeOrder.stored [] "myapp".toList
    "string".toList (by decide)).2 (by decide)
  ⟨⟨h1.1, h1.2⟩, ⟨h2.1, h2.2.2⟩⟩

end ConfigGen
